import Mathlib

/-!
# GeeCache: the LRU engine, the value view and the groups

A shallow embedding of `GeeCache/lru/lru.go`, of the value view of
`GeeCache/byteview.go`, and of the groups of `GeeCache/geecache.go` with the
interfaces of `GeeCache/peers.go`.

* Go's `container/list` is a Lean list of elements, front first.  Every element
  carries the address it was allocated at (`ptr`), so that the map
  `cache : map[string]*list.Element` can be kept as a separate association list
  from keys to addresses, exactly as the source keeps it.
* `nbytes` and `maxBytes` are `int64` in the source.  They are integers here,
  with sums that do not wrap around.  The two agree as long as the sums the
  source computes stay within `int64`; a theorem whose conclusion the
  wrap-around would change takes that bound (`maxInt64`) as a hypothesis.
* The loop at the end of `Add` need not terminate, so it takes fuel and
  answers `none` when the fuel is used up.
* The callback `OnEvicted` is kept as a flag (is it non-nil) together with the
  log of the calls made to it.
* A group is run one call after another.  The concurrent cache of cache.go and
  the coalescer of the singleflight package are not among the sources; their
  definitions follow the specification and say so.  A group keeps the log of
  what it asked of the cache, the peers and the loader.
* A panic is the message it carries, next to the state it leaves behind.
-/

namespace GeeCache

/-- Go's `byte`. -/
abbrev Byte := Fin 256

/-- The struct `ByteView` of byteview.go, as the value it holds: the bytes of
its slice `bv`.  This is what the cache stores; `mem.ByteView` is the same
struct with the slice as a reference into memory. -/
structure ByteView where
  bv : List Byte
deriving DecidableEq

namespace lru

/-- The interface `Value` of lru.go: anything with a method `Len() int`.  The
result is an integer; where a property needs it to be a size, that is not
negative, the theorem says so. -/
class Value (V : Type) where
  Len : V → Int

/-- The largest `int64`, `math.MaxInt64`. -/
def maxInt64 : Int :=
  9223372036854775807

/-- The struct `entry` of lru.go. -/
structure entry (V : Type) where
  key : String
  value : V
deriving DecidableEq

/-- A `list.Element`: the address it lives at and the `*entry` it holds. -/
structure Element (V : Type) where
  ptr : Nat
  Value : entry V
deriving DecidableEq

/-- The struct `Cache` of lru.go.  `ll` has the front of the list first.
`nextPtr` is the next free address and `evicted` the calls made to
`OnEvicted` so far, oldest first. -/
structure Cache (V : Type) where
  maxBytes : Int
  nbytes : Int
  ll : List (Element V)
  cache : List (String × Nat)
  OnEvicted : Bool
  nextPtr : Nat
  evicted : List (String × V)
deriving DecidableEq

/-- Map read `m[key]` with the `ok` flag. -/
def mapLookup : List (String × Nat) → String → Option Nat
  | [], _ => none
  | (k, p) :: m, key => if k = key then some p else mapLookup m key

/-- Go's `delete(m, key)`. -/
def mapDelete (m : List (String × Nat)) (key : String) : List (String × Nat) :=
  m.filter (fun kp => decide (kp.1 ≠ key))

/-- Map write `m[key] = p`. -/
def mapInsert (m : List (String × Nat)) (key : String) (p : Nat) : List (String × Nat) :=
  (key, p) :: mapDelete m key

/-- The element at address `p`, when it is in the list. -/
def deref {V : Type} (l : List (Element V)) (p : Nat) : Option (Element V) :=
  l.find? (fun e => decide (e.ptr = p))

/-- `list.MoveToFront`: nothing happens when the element is not in the list. -/
def MoveToFront {V : Type} (l : List (Element V)) (p : Nat) : List (Element V) :=
  match deref l p with
  | some e => e :: l.eraseP (fun e => decide (e.ptr = p))
  | none => l

/-- `list.PushFront`. -/
def PushFront {V : Type} (l : List (Element V)) (e : Element V) : List (Element V) :=
  e :: l

/-- `list.Back`. -/
def Back {V : Type} (l : List (Element V)) : Option (Element V) :=
  l.getLast?

/-- `list.Remove`. -/
def Remove {V : Type} (l : List (Element V)) (p : Nat) : List (Element V) :=
  l.eraseP (fun e => decide (e.ptr = p))

/-- The assignment `kv.value = value` through the pointer held by the element
at address `p`. -/
def setValue {V : Type} (l : List (Element V)) (p : Nat) (value : V) : List (Element V) :=
  l.map (fun e => if e.ptr = p then { e with Value := { e.Value with value := value } } else e)

/-- `lru.New`. -/
def New {V : Type} (maxBytes : Int) (onEvicted : Bool) : Cache V :=
  { maxBytes := maxBytes, nbytes := 0, ll := [], cache := [],
    OnEvicted := onEvicted, nextPtr := 0, evicted := [] }

/-- `Cache.Get`: the value with the `ok` flag, and the cache afterwards.  A map
entry always points into the list (see `Inv`); were it not to, the model
answers a miss. -/
def Get {V : Type} (c : Cache V) (key : String) : Option V × Cache V :=
  match mapLookup c.cache key with
  | some p =>
    match deref c.ll p with
    | some ele => (some ele.Value.value, { c with ll := MoveToFront c.ll p })
    | none => (none, c)
  | none => (none, c)

/-- `Cache.RemoveOldest`. -/
def RemoveOldest {V : Type} [Value V] (c : Cache V) : Cache V :=
  match Back c.ll with
  | some ele =>
    { c with
      ll := Remove c.ll ele.ptr
      cache := mapDelete c.cache ele.Value.key
      nbytes := c.nbytes - ((ele.Value.key.utf8ByteSize : Int) + (Value.Len ele.Value.value : Int))
      evicted := if c.OnEvicted then c.evicted ++ [(ele.Value.key, ele.Value.value)]
                 else c.evicted }
  | none => c

/-- The `if`/`else` of `Cache.Add` (lines 59 to 71), before the loop that
evicts.  As in `Get`, a map entry that points outside the list cannot arise
(see `Inv`); the model leaves the cache as it is there. -/
def addEntry {V : Type} [Value V] (c : Cache V) (key : String) (value : V) : Cache V :=
  match mapLookup c.cache key with
  | some p =>
    match deref c.ll p with
    | some ele =>
      { c with
        ll := setValue (MoveToFront c.ll p) p value
        nbytes := c.nbytes + ((Value.Len ele.Value.value : Int) - (Value.Len value : Int)) }
    | none => c
  | none =>
    { c with
      ll := PushFront c.ll { ptr := c.nextPtr, Value := { key := key, value := value } }
      cache := mapInsert c.cache key c.nextPtr
      nbytes := c.nbytes + ((key.utf8ByteSize : Int) + (Value.Len value : Int))
      nextPtr := c.nextPtr + 1 }

/-- The loop `for c.maxBytes != 0 && c.maxBytes < c.nbytes { c.RemoveOldest() }`
of `Cache.Add`; `none` when the fuel runs out before the condition fails. -/
def evictLoop {V : Type} [Value V] : Nat → Cache V → Option (Cache V)
  | fuel, c =>
    if c.maxBytes ≠ 0 ∧ c.maxBytes < c.nbytes then
      match fuel with
      | 0 => none
      | n + 1 => evictLoop n (RemoveOldest c)
    else some c

/-- `Cache.Add`. -/
def Add {V : Type} [Value V] (fuel : Nat) (c : Cache V) (key : String) (value : V) :
    Option (Cache V) :=
  evictLoop fuel (addEntry c key value)

/-- `Cache.Len`. -/
def Len {V : Type} (c : Cache V) : Nat :=
  c.ll.length

/-- A call of one of the methods that change a cache. -/
inductive Op (V : Type) where
  | Add (key : String) (value : V)
  | Get (key : String)
  | RemoveOldest
deriving DecidableEq

/-- The cache after one call; `none` when the call does not return. -/
def step {V : Type} [Value V] (fuel : Nat) (c : Cache V) : Op V → Option (Cache V)
  | .Add key value => Add fuel c key value
  | .Get key => some (Get c key).2
  | .RemoveOldest => some (RemoveOldest c)

/-- The cache after a sequence of calls, each `Add` with `fuel` for its loop. -/
def run {V : Type} [Value V] (fuel : Nat) (c : Cache V) : List (Op V) → Option (Cache V)
  | [] => some c
  | op :: ops => (step fuel c op).bind (fun c' => run fuel c' ops)

/-- The byte cost `len(key) + value.Len()` of an entry. -/
def cost {V : Type} [Value V] (e : entry V) : Int :=
  (e.key.utf8ByteSize : Int) + (Value.Len e.value : Int)

/-- The sum of the costs of the entries in the list. -/
def sumCost {V : Type} [Value V] (c : Cache V) : Int :=
  (c.ll.map (fun e => cost e.Value)).sum

/-- The keys of the entries in the list, front first. -/
def keys {V : Type} (c : Cache V) : List String :=
  c.ll.map (fun e => e.Value.key)

/-- The entries held by the list, front first. -/
def entries {V : Type} (c : Cache V) : List (entry V) :=
  c.ll.map (fun e => e.Value)

/-- The value of the latest `Add` of `key` in a sequence of calls, if there is
one. -/
def lastAdd {V : Type} : List (Op V) → String → Option V
  | [], _ => none
  | .Add k v :: ops, key =>
    match lastAdd ops key with
    | some w => some w
    | none => if k = key then some v else none
  | .Get _ :: ops, key => lastAdd ops key
  | .RemoveOldest :: ops, key => lastAdd ops key

/-- The keys given to `Add` in a sequence of calls, in order. -/
def addedKeys {V : Type} : List (Op V) → List String
  | [] => []
  | .Add k _ :: ops => k :: addedKeys ops
  | .Get _ :: ops => addedKeys ops
  | .RemoveOldest :: ops => addedKeys ops

/-- The key a call accesses: the key of an `Add`, and the key of a `Get` that
hits. -/
def accessed {V : Type} (c : Cache V) : Op V → List String
  | .Add k _ => [k]
  | .Get k => if (Get c k).1.isSome then [k] else []
  | .RemoveOldest => []

/-- The keys accessed by a sequence of calls, oldest access first. -/
def accesses {V : Type} [Value V] (fuel : Nat) (c : Cache V) : List (Op V) → List String
  | [] => []
  | op :: ops =>
    accessed c op ++
      (match step fuel c op with
       | some c' => accesses fuel c' ops
       | none => [])

/-- The time of the most recent access of `key`: the position of its last
occurrence in the accesses. -/
def lastAccess : List String → String → Option Nat
  | [], _ => none
  | a :: acc, key =>
    match lastAccess acc key with
    | some i => some (i + 1)
    | none => if a = key then some 0 else none

/-- The most recent access of `a` is later than the most recent access of `b`. -/
def Later (acc : List String) (a b : String) : Prop :=
  ∃ i j, lastAccess acc b = some i ∧ lastAccess acc a = some j ∧ i < j

/-- The keys `ks`, front first, are in the order of their most recent access,
the latest first, and each of them has been accessed. -/
def Recent (acc : List String) (ks : List String) : Prop :=
  (∀ k ∈ ks, ∃ i, lastAccess acc k = some i) ∧ ks.Pairwise (Later acc)

/-- The shape every cache built by `New` and changed by the methods has: no
address and no key occurs twice in the list, the map holds exactly the pairs
of a key in the list and the address of its element, and every address in use
lies below the next free one. -/
structure Inv {V : Type} (c : Cache V) : Prop where
  ptrs_nodup : (c.ll.map (fun e => e.ptr)).Nodup
  keys_nodup : (keys c).Nodup
  map_perm : List.Perm c.cache (c.ll.map (fun e => (e.Value.key, e.ptr)))
  fresh : ∀ e ∈ c.ll, e.ptr < c.nextPtr

end lru

/-- `ByteView.Len`. -/
def ByteView.Len (v : ByteView) : Nat :=
  v.bv.length

/-- `ByteView` is an `lru.Value`. -/
instance : lru.Value ByteView where
  Len := fun v => (v.Len : Int)

/-- A view of `n` zero bytes. -/
def zeros (n : Nat) : ByteView :=
  { bv := List.replicate n 0 }

namespace lru

/-- The entries added in the eviction scenario: two of 11 bytes each. -/
def scenarioAdds : List (String × ByteView) :=
  [("a", zeros 10), ("b", zeros 10)]

/-- The cache the eviction scenario ends in under a budget of 16 bytes. -/
def scenarioCache : Cache ByteView :=
  { maxBytes := 16, nbytes := 11,
    ll := [{ ptr := 1, Value := { key := "b", value := zeros 10 } }],
    cache := [("b", 1)], OnEvicted := false, nextPtr := 2, evicted := [] }

/-- Three calls on keys of one byte with values of 1, 2 and 3 bytes. -/
def smallOps : List (Op ByteView) :=
  [Op.Add "a" (zeros 1), Op.Add "b" (zeros 2), Op.Add "a" (zeros 3)]

/-- The cache `smallOps` ends in when the callback is set and nothing is
evicted. -/
def smallCache (maxBytes : Int) : Cache ByteView :=
  { maxBytes := maxBytes, nbytes := 3,
    ll := [{ ptr := 0, Value := { key := "a", value := zeros 3 } },
           { ptr := 1, Value := { key := "b", value := zeros 2 } }],
    cache := [("b", 1), ("a", 0)], OnEvicted := true, nextPtr := 2, evicted := [] }

end lru

/-! ### The value view -/

/-- Go's `make([]byte, n)`: `n` zero bytes. -/
def makeBytes (n : Nat) : List Byte :=
  List.replicate n 0

/-- Go's `copy(dst, src)`, as the contents of `dst` afterwards: the first
`min(len(dst), len(src))` bytes come from `src`. -/
def copyBytes (dst src : List Byte) : List Byte :=
  src.take dst.length ++ dst.drop src.length

/-- `cloneBytes` of byteview.go. -/
def cloneBytes (b : List Byte) : List Byte :=
  copyBytes (makeBytes b.length) b

/-- The conversion `string(b)` of a byte slice.  A Go string may hold any
bytes, so the string made from a slice is kept as its bytes. -/
def stringOfBytes (b : List Byte) : List Byte :=
  b

/-! ### Slices in memory

The byte slices of Go are references.  To speak about a change made through
one slice being seen, or not, through another, the arrays behind the slices
are kept in a heap; a slice is the address of its array.  The methods of
`ByteView` that hand out or read its slice are embedded here, on the heap. -/

/-- The arrays behind the byte slices, by address. -/
abbrev Heap := List (List Byte)

/-- A byte slice: the address of the array it refers to. -/
structure Slice where
  addr : Nat
deriving DecidableEq

/-- The bytes seen through a slice. -/
def Heap.read (h : Heap) (s : Slice) : List Byte :=
  h.getD s.addr []

/-- The assignment `s[i] = x`. -/
def Heap.write (h : Heap) (s : Slice) (i : Nat) (x : Byte) : Heap :=
  h.set s.addr ((h.read s).set i x)

/-- Go's `make([]byte, n)` in the heap: a new array at the next free address. -/
def Heap.make (h : Heap) (n : Nat) : Heap × Slice :=
  (h ++ [makeBytes n], { addr := h.length })

/-- Go's `copy(dst, src)` in the heap. -/
def Heap.copy (h : Heap) (dst src : Slice) : Heap :=
  h.set dst.addr (copyBytes (h.read dst) (h.read src))

namespace mem

/-- The struct `ByteView` of byteview.go as it lies in memory: its field `bv`
is a slice, a reference to an array of the heap.  `GeeCache.ByteView` is the
value it holds. -/
structure ByteView where
  bv : Slice
deriving DecidableEq

/-- `cloneBytes` of byteview.go in memory: `make`, then `copy`; the heap
afterwards and the slice returned. -/
def cloneBytes (h : Heap) (b : Slice) : Heap × Slice :=
  ((h.make (h.read b).length).1.copy (h.make (h.read b).length).2 b,
   (h.make (h.read b).length).2)

/-- `ByteView.Len` in memory. -/
def ByteView.Len (h : Heap) (v : ByteView) : Nat :=
  (h.read v.bv).length

/-- `ByteView.ByteSlice` in memory: the heap afterwards and the slice
returned. -/
def ByteView.ByteSlice (h : Heap) (v : ByteView) : Heap × Slice :=
  cloneBytes h v.bv

/-- `ByteView.String` in memory. -/
def ByteView.String (h : Heap) (v : ByteView) : List Byte :=
  stringOfBytes (h.read v.bv)

/-- What the three methods of a view return in the heap `h`: the bytes seen
through the slice that `ByteSlice` returns, the string of `String`, and the
number of `Len`. -/
def ByteView.answers (h : Heap) (v : ByteView) : List Byte × List Byte × Nat :=
  ((v.ByteSlice h).1.read (v.ByteSlice h).2, v.String h, v.Len h)

/-- The value a view in memory holds. -/
def ByteView.value (h : Heap) (v : ByteView) : GeeCache.ByteView :=
  { bv := h.read v.bv }

/-- The statement `values := ByteView{bv: cloneBytes(bytes)}` of `getLocally`
in memory, for the slice `bytes` the loader returned. -/
def loadedView (h : Heap) (bytes : Slice) : Heap × ByteView :=
  ((cloneBytes h bytes).1, { bv := (cloneBytes h bytes).2 })

end mem

/-! ### Groups -/

/-- Go's `error` values, by their message. -/
abbrev Error := String

/-- The interface `Getter` of geecache.go: `Get(key)` answers bytes and an
error, `none` for nil. -/
structure Getter where
  Get : String → List Byte × Option Error

namespace pb

/-- Modelled from the spec: the request of the peer-get contract,
`request{group, key}` (package geecachepb is not among the sources). -/
structure Request where
  Group : String
  Key : String
deriving DecidableEq

/-- Modelled from the spec: the response of the peer-get contract,
`response{value: bytes}` (package geecachepb is not among the sources). -/
structure Response where
  Value : List Byte
deriving DecidableEq

end pb

/-- The interface `PeerGetter` of peers.go: `Get(in, out)` fills `out` and
answers an error, `none` for nil. -/
structure PeerGetter where
  Get : pb.Request → pb.Response → pb.Response × Option Error

/-- The interface `PeerPicker` of peers.go: `PickPeer(key)` answers a peer
when `ok` is true. -/
structure PeerPicker where
  PickPeer : String → Option PeerGetter

/-- Modelled from the spec: the concurrent cache of cache.go, which is not
among the sources.  It is configured with a byte budget and holds the LRU
engine, created on the first `add`. -/
structure cache where
  cacheBytes : Int
  lru : Option (lru.Cache ByteView)

/-- Modelled from the spec: `cache.add` of cache.go, which is not among the
sources: it creates the engine if needed and delegates to `lru.Add`.  The lock
plays no part in a run of one call after another. -/
def cache.add (fuel : Nat) (c : cache) (key : String) (value : ByteView) : Option cache :=
  (lru.Add fuel (c.lru.getD (lru.New c.cacheBytes false)) key value).map
    (fun l => { c with lru := some l })

/-- Modelled from the spec: `cache.get` of cache.go, which is not among the
sources: a miss when the engine is not yet created, else what `lru.Get`
answers. -/
def cache.get (c : cache) (key : String) : Option ByteView × cache :=
  match c.lru with
  | none => (none, c)
  | some l => ((lru.Get l key).1, { c with lru := some (lru.Get l key).2 })

namespace singleflight

/-- Modelled from the spec: the coalescer `singleflight.Group`, which is not
among the sources.  Its records exist only while a call runs, so between the
calls of a run of one call after another it holds nothing. -/
structure Group where
  mk ::
deriving DecidableEq

/-- Modelled from the spec: `singleflight.Group.Do`, which is not among the
sources.  With no call in flight for the key it makes a record, runs `fn`,
removes the record and returns what `fn` returned. -/
def Group.Do {α : Type} (_g : Group) (_key : String) (fn : Unit → α) : α :=
  fn ()

end singleflight

/-- What a `Group` does to the world around it, in order: queries of the local
cache, admissions to it, calls of the peer selector, of a peer, and of the
user loader. -/
inductive Event where
  | cacheGet (key : String)
  | cacheAdd (key : String)
  | pickPeer (key : String)
  | peerGet (group key : String)
  | getterGet (key : String)
deriving DecidableEq

/-- The struct `Group` of geecache.go, with the log of what it did so far. -/
structure Group where
  name : String
  getter : Getter
  mainCache : cache
  peers : Option PeerPicker
  loader : singleflight.Group
  events : List Event

/-- The result of `Group.Get` and of the methods behind it: the view and the
error returned, and the group afterwards; `none` when the call does not
return. -/
abbrev Outcome := Option ((ByteView × Option Error) × Group)

/-- `Group.populateCache`. -/
def Group.populateCache (fuel : Nat) (g : Group) (key : String) (value : ByteView) :
    Option Group :=
  (g.mainCache.add fuel key value).map
    (fun c => { g with mainCache := c, events := g.events ++ [Event.cacheAdd key] })

/-- `Group.getLocally`. -/
def Group.getLocally (fuel : Nat) (g : Group) (key : String) : Outcome :=
  let res := g.getter.Get key
  let g1 := { g with events := g.events ++ [Event.getterGet key] }
  match res.2 with
  | some err => some (({ bv := [] }, some err), g1)
  | none =>
    let values : ByteView := { bv := cloneBytes res.1 }
    (Group.populateCache fuel g1 key values).map (fun g2 => ((values, none), g2))

/-- `Group.getFromPeer`. -/
def Group.getFromPeer (g : Group) (peer : PeerGetter) (key : String) :
    (ByteView × Option Error) × Group :=
  let req : pb.Request := { Group := g.name, Key := key }
  let res := peer.Get req { Value := [] }
  let g1 := { g with events := g.events ++ [Event.peerGet g.name key] }
  match res.2 with
  | some err => (({ bv := [] }, some err), g1)
  | none => (({ bv := res.1.Value }, none), g1)

/-- The function literal that `Group.load` hands to `loader.Do`.  Next to what
the literal returns it gives the named result `value` of `load`, which the
literal assigns when it asks a peer. -/
def Group.loadFn (fuel : Nat) (g : Group) (key : String) :
    Option (((ByteView × Option Error) × ByteView) × Group) :=
  match g.peers with
  | some peers =>
    let g1 := { g with events := g.events ++ [Event.pickPeer key] }
    match peers.PickPeer key with
    | some peer =>
      let r := Group.getFromPeer g1 peer key
      match r.1.2 with
      | none => some (((r.1.1, none), r.1.1), r.2)
      | some _ => (Group.getLocally fuel r.2 key).map (fun q => ((q.1, r.1.1), q.2))
    | none => (Group.getLocally fuel g1 key).map (fun q => ((q.1, { bv := [] }), q.2))
  | none => (Group.getLocally fuel g key).map (fun q => ((q.1, { bv := [] }), q.2))

/-- The end of `Group.load`, after `loader.Do` has returned `viewi` and `err`:
the bare `return` of the named results when `err` is not nil, and
`viewi.(ByteView), nil` otherwise. -/
def Group.loadReturn (r : ((ByteView × Option Error) × ByteView) × Group) :
    (ByteView × Option Error) × Group :=
  match r.1.1.2 with
  | some e => ((r.1.2, some e), r.2)
  | none => ((r.1.1.1, none), r.2)

/-- `Group.load`. -/
def Group.load (fuel : Nat) (g : Group) (key : String) : Outcome :=
  (g.loader.Do key (fun _ => Group.loadFn fuel g key)).map Group.loadReturn

/-- `Group.Get`. -/
def Group.Get (fuel : Nat) (g : Group) (key : String) : Outcome :=
  if key = "" then
    some (({ bv := [] }, some "key is required"), g)
  else
    let res := g.mainCache.get key
    let g1 := { g with mainCache := res.2, events := g.events ++ [Event.cacheGet key] }
    match res.1 with
    | some v => some ((v, none), g1)
    | none => Group.load fuel g1 key

/-- Whether a registered selector picks, for `key`, a peer whose `Get`
succeeds. -/
def Group.servedByPeer (g : Group) (key : String) : Bool :=
  match g.peers with
  | some peers =>
    match peers.PickPeer key with
    | some peer => (peer.Get { Group := g.name, Key := key } { Value := [] }).2.isNone
    | none => false
  | none => false

/-- `Group.RegisterPeers`: the message of the panic, `none` when the call
returns, and the group afterwards. -/
def Group.RegisterPeers (g : Group) (peers : Option PeerPicker) : Option String × Group :=
  if g.peers.isSome then
    (some "RegisterPeerPicker called more than once", g)
  else
    (none, { g with peers := peers })

/-- The package variable `groups`, a map from names to groups. -/
abbrev Registry := List (String × Group)

/-- Map read `groups[name]`, nil when the name is not a key. -/
def Registry.lookup : Registry → String → Option Group
  | [], _ => none
  | (n, g) :: r, name => if n = name then some g else Registry.lookup r name

/-- Map write `groups[name] = g`. -/
def Registry.insert (r : Registry) (name : String) (g : Group) : Registry :=
  (name, g) :: r.filter (fun ng => decide (ng.1 ≠ name))

/-- `NewGroup`: the message of the panic, `none` when the call returns, the
registry afterwards and the group returned.  A nil `getter` is `none`. -/
def NewGroup (groups : Registry) (name : String) (cacheBytes : Int)
    (getter : Option Getter) : Option String × Registry × Option Group :=
  match getter with
  | none => (some "nil Getter", groups, none)
  | some f =>
    let g : Group :=
      { name := name, getter := f, mainCache := { cacheBytes := cacheBytes, lru := none },
        peers := none, loader := singleflight.Group.mk, events := [] }
    (none, Registry.insert groups name g, some g)

/-- `GetGroup`. -/
def GetGroup (groups : Registry) (name : String) : Option Group :=
  Registry.lookup groups name

/-- The registry after a sequence of `NewGroup` calls, given by their
arguments. -/
def registerAll : Registry → List (String × Int × Option Getter) → Registry
  | r, [] => r
  | r, (n, b, f) :: calls => registerAll (NewGroup r n b f).2.1 calls

/-- The group returned by the latest call of a sequence of `NewGroup` calls
that has the name `name` and returns. -/
def lastCreated : List (String × Int × Option Getter) → String → Option Group
  | [], _ => none
  | (n, b, f) :: calls, name =>
    match lastCreated calls name with
    | some g => some g
    | none => if n = name then (NewGroup [] n b f).2.2 else none

/-- A peer whose `Get` always fails. -/
def failingPeer : PeerGetter :=
  { Get := fun _ out => (out, some "peer down") }

/-- A peer whose `Get` always answers the bytes 1, 2, 3. -/
def answeringPeer : PeerGetter :=
  { Get := fun _ _ => ({ Value := [1, 2, 3] }, none) }

/-- A selector that picks the same peer for every key. -/
def pickAlways (peer : PeerGetter) : PeerPicker :=
  { PickPeer := fun _ => some peer }

/-- The table `db` of main.go; the values are the bytes of "630", "589" and
"567". -/
def db : List (String × List Byte) :=
  [("Tom", [54, 51, 48]), ("Jack", [53, 56, 57]), ("Sam", [53, 54, 55])]

/-- Map read `db[key]` with the `ok` flag. -/
def dbLookup : List (String × List Byte) → String → Option (List Byte)
  | [], _ => none
  | (k, v) :: m, key => if k = key then some v else dbLookup m key

/-- The loader that `createGroup` of main.go hands to `NewGroup`. -/
def dbGetter : Getter :=
  { Get := fun key =>
      match dbLookup db key with
      | some v => (v, none)
      | none => ([], some (key ++ " not exist")) }

/-- The group made by `createGroup` of main.go: "scores" with a budget of
`2<<10` bytes. -/
def scores : Group :=
  { name := "scores", getter := dbGetter, mainCache := { cacheBytes := 2048, lru := none },
    peers := none, loader := singleflight.Group.mk, events := [] }

end GeeCache


/-! ## The map and the list -/

namespace GeeCache.lru

theorem mem_of_mapLookup {m : List (String × Nat)} {k : String} {p : Nat}
    (h : mapLookup m k = some p) : (k, p) ∈ m := by
  induction m with
  | nil => simp [mapLookup] at h
  | cons a m ih =>
    obtain ⟨k1, p1⟩ := a
    simp only [mapLookup] at h
    split at h
    · rename_i hk
      simp only [Option.some.injEq] at h
      subst hk; subst h
      exact List.mem_cons_self _ _
    · exact List.mem_cons_of_mem _ (ih h)

theorem mapLookup_of_mem {m : List (String × Nat)} {k : String} {p : Nat}
    (hnd : (m.map Prod.fst).Nodup) (h : (k, p) ∈ m) : mapLookup m k = some p := by
  induction m with
  | nil => simp at h
  | cons a m ih =>
    obtain ⟨k1, p1⟩ := a
    simp only [List.map_cons, List.nodup_cons] at hnd
    simp only [mapLookup]
    rcases List.mem_cons.mp h with h1 | h1
    · simp only [Prod.mk.injEq] at h1
      simp [h1.1, h1.2]
    · have hne : k1 ≠ k := by
        intro heq
        apply hnd.1
        rw [heq]
        exact List.mem_map_of_mem Prod.fst h1
      simp only [hne, if_false]
      exact ih hnd.2 h1

theorem mapLookup_eq_none {m : List (String × Nat)} {k : String}
    (h : k ∉ m.map Prod.fst) : mapLookup m k = none := by
  cases hl : mapLookup m k with
  | none => rfl
  | some p => exact absurd (List.mem_map_of_mem Prod.fst (mem_of_mapLookup hl)) h

theorem mapLookup_mapDelete_self (m : List (String × Nat)) (k : String) :
    mapLookup (mapDelete m k) k = none := by
  apply mapLookup_eq_none
  simp [mapDelete]

theorem mapDelete_of_not_mem {m : List (String × Nat)} {k : String}
    (h : k ∉ m.map Prod.fst) : mapDelete m k = m := by
  unfold mapDelete
  rw [List.filter_eq_self]
  intro a ha
  have : a.1 ≠ k := fun heq => h (heq ▸ List.mem_map_of_mem Prod.fst ha)
  simpa using this

theorem deref_mem {V : Type} {l : List (Element V)} {p : Nat} {e : Element V}
    (h : deref l p = some e) : e ∈ l ∧ e.ptr = p := by
  unfold deref at h
  exact ⟨List.mem_of_find?_eq_some h, by simpa using List.find?_some h⟩

theorem deref_of_mem {V : Type} {l : List (Element V)} {e : Element V}
    (hnd : (l.map (fun e => e.ptr)).Nodup) (h : e ∈ l) : deref l e.ptr = some e := by
  induction l with
  | nil => simp at h
  | cons a l ih =>
    simp only [List.map_cons, List.nodup_cons] at hnd
    unfold deref
    rcases List.mem_cons.mp h with h1 | h1
    · subst h1
      simp
    · have hne : a.ptr ≠ e.ptr := by
        intro heq
        apply hnd.1
        rw [heq]
        exact List.mem_map_of_mem (fun e => e.ptr) h1
      rw [List.find?_cons_of_neg _ (by simpa using hne)]
      exact ih hnd.2 h1

theorem ne_of_nodup_split {α β : Type} (f : α → β) {as bs : List α} {e : α}
    (h : ((as ++ e :: bs).map f).Nodup) : ∀ x ∈ as ++ bs, f x ≠ f e := by
  intro x hx heq
  rw [List.map_append, List.map_cons] at h
  have h2 := (List.nodup_middle.mp h)
  rw [List.nodup_cons, ← List.map_append] at h2
  exact h2.1 (heq ▸ List.mem_map_of_mem f hx)

theorem Inv.lookup_of_mem {V : Type} {c : Cache V} (h : Inv c) {e : Element V}
    (he : e ∈ c.ll) : mapLookup c.cache e.Value.key = some e.ptr := by
  have hnd : (c.cache.map Prod.fst).Nodup := by
    have := (h.map_perm.map Prod.fst).nodup_iff
    rw [this, List.map_map]
    exact h.keys_nodup
  apply mapLookup_of_mem hnd
  rw [h.map_perm.mem_iff]
  exact List.mem_map_of_mem (fun e => (e.Value.key, e.ptr)) he

theorem Inv.lookup_of_not_mem {V : Type} {c : Cache V} (h : Inv c) {k : String}
    (hk : k ∉ keys c) : mapLookup c.cache k = none := by
  apply mapLookup_eq_none
  have := (h.map_perm.map Prod.fst).mem_iff (a := k)
  rw [this, List.map_map]
  exact hk

theorem Inv.not_mem_map {V : Type} {c : Cache V} (h : Inv c) {k : String}
    (hk : k ∉ keys c) : k ∉ c.cache.map Prod.fst := by
  have := (h.map_perm.map Prod.fst).mem_iff (a := k)
  rw [this, List.map_map]
  exact hk

/-- An element of the list splits it into the elements before and after it,
none of which shares its address or its key. -/
theorem Inv.split {V : Type} {c : Cache V} (h : Inv c) {e : Element V} (he : e ∈ c.ll) :
    ∃ as bs, c.ll = as ++ e :: bs ∧
      (∀ x ∈ as ++ bs, x.ptr ≠ e.ptr) ∧ (∀ x ∈ as ++ bs, x.Value.key ≠ e.Value.key) := by
  obtain ⟨as, bs, hl⟩ := List.append_of_mem he
  refine ⟨as, bs, hl, ?_, ?_⟩
  · have := h.ptrs_nodup
    rw [hl] at this
    exact ne_of_nodup_split (fun x : Element V => x.ptr) this
  · have := h.keys_nodup
    unfold keys at this
    rw [hl] at this
    exact ne_of_nodup_split (fun x : Element V => x.Value.key) this

theorem eraseP_split {V : Type} {as bs : List (Element V)} {e : Element V}
    (hp : ∀ x ∈ as ++ bs, x.ptr ≠ e.ptr) :
    (as ++ e :: bs).eraseP (fun x => decide (x.ptr = e.ptr)) = as ++ bs := by
  rw [List.eraseP_append_right]
  · simp
  · intro b hb
    simpa using hp b (List.mem_append_left _ hb)

theorem filter_split {V : Type} {as bs : List (Element V)} {e : Element V}
    (hk : ∀ x ∈ as ++ bs, x.Value.key ≠ e.Value.key) :
    (as ++ e :: bs).filter (fun x => decide (x.Value.key ≠ e.Value.key)) = as ++ bs := by
  rw [List.filter_append, List.filter_cons]
  simp only [ne_eq, not_true_eq_false, decide_False, Bool.false_eq_true, if_false]
  congr 1
  · rw [List.filter_eq_self]
    intro a ha
    simpa using hk a (List.mem_append_left _ ha)
  · rw [List.filter_eq_self]
    intro a ha
    simpa using hk a (List.mem_append_right _ ha)

theorem setValue_of_ne {V : Type} {l : List (Element V)} {p : Nat} (v : V)
    (h : ∀ x ∈ l, x.ptr ≠ p) : setValue l p v = l := by
  unfold setValue
  conv_rhs => rw [← List.map_id l]
  apply List.map_congr_left
  intro a ha
  simp [h a ha]

/-- The list after `MoveToFront` of an element of the list. -/
theorem Inv.MoveToFront_of_mem {V : Type} {c : Cache V} (h : Inv c) {e : Element V}
    (he : e ∈ c.ll) :
    MoveToFront c.ll e.ptr
      = e :: c.ll.filter (fun x => decide (x.Value.key ≠ e.Value.key)) := by
  obtain ⟨as, bs, hl, hp, hk⟩ := h.split he
  unfold MoveToFront
  rw [deref_of_mem h.ptrs_nodup he]
  simp only
  rw [hl, eraseP_split hp, filter_split hk]

/-! ## What the methods do to a well-formed cache -/

theorem Inv_New {V : Type} (maxBytes : Int) (onEvicted : Bool) :
    Inv (New maxBytes onEvicted : Cache V) :=
  ⟨List.nodup_nil, List.nodup_nil, List.Perm.nil, fun _ he => by simp [New] at he⟩

theorem Inv.moveFront {V : Type} {c : Cache V} (h : Inv c) {as bs : List (Element V)}
    {e : Element V} (hl : c.ll = as ++ e :: bs) (v : V) (n : Int) :
    Inv { c with
          ll := { ptr := e.ptr, Value := { key := e.Value.key, value := v } } :: (as ++ bs)
          nbytes := n } := by
  refine ⟨?_, ?_, ?_, ?_⟩
  · have := h.ptrs_nodup
    rw [hl, List.map_append, List.map_cons] at this
    simpa [List.map_append] using List.nodup_middle.mp this
  · have := h.keys_nodup
    unfold keys at this
    rw [hl, List.map_append, List.map_cons] at this
    simpa [keys, List.map_append] using List.nodup_middle.mp this
  · refine h.map_perm.trans ?_
    rw [hl]
    simp [List.map_append]
  · intro x hx
    simp only [List.mem_cons, List.mem_append] at hx
    rcases hx with hx | hx | hx
    · subst hx
      exact h.fresh e (by rw [hl]; simp)
    · exact h.fresh x (by rw [hl]; simp [hx])
    · exact h.fresh x (by rw [hl]; simp [hx])

/-- A hit: `Get` on the key of an element of the list. -/
theorem Get_of_mem {V : Type} {c : Cache V} (h : Inv c) {e : Element V} (he : e ∈ c.ll) :
    Get c e.Value.key
      = (some e.Value.value,
         { c with ll := e :: c.ll.filter (fun x => decide (x.Value.key ≠ e.Value.key)) }) := by
  unfold Get
  rw [h.lookup_of_mem he]
  simp only
  rw [deref_of_mem h.ptrs_nodup he]
  simp only
  rw [h.MoveToFront_of_mem he]

/-- A miss: `Get` on a key that no element of the list holds. -/
theorem Get_of_not_mem {V : Type} {c : Cache V} (h : Inv c) {k : String}
    (hk : k ∉ keys c) : Get c k = (none, c) := by
  unfold Get
  rw [h.lookup_of_not_mem hk]

theorem Inv_Get {V : Type} {c : Cache V} (h : Inv c) (k : String) : Inv (Get c k).2 := by
  by_cases hk : k ∈ keys c
  · obtain ⟨e, he, rfl⟩ := List.mem_map.mp hk
    rw [Get_of_mem h he]
    obtain ⟨as, bs, hl, _, hkk⟩ := h.split he
    have := h.moveFront hl e.Value.value c.nbytes
    simp only
    rw [hl, filter_split hkk]
    exact this
  · rw [Get_of_not_mem h hk]
    exact h

/-- The first branch of `Add`: the key is the key of an element of the list. -/
theorem addEntry_of_mem {V : Type} [Value V] {c : Cache V} (h : Inv c) {e : Element V}
    (he : e ∈ c.ll) (v : V) :
    addEntry c e.Value.key v
      = { c with
          ll := { ptr := e.ptr, Value := { key := e.Value.key, value := v } }
                  :: c.ll.filter (fun x => decide (x.Value.key ≠ e.Value.key))
          nbytes := c.nbytes + ((Value.Len e.Value.value : Int) - (Value.Len v : Int)) } := by
  unfold addEntry
  rw [h.lookup_of_mem he]
  simp only
  rw [deref_of_mem h.ptrs_nodup he]
  simp only
  rw [h.MoveToFront_of_mem he]
  obtain ⟨as, bs, hl, hp, hk⟩ := h.split he
  rw [hl, filter_split hk]
  have : setValue (e :: (as ++ bs)) e.ptr v
      = { ptr := e.ptr, Value := { key := e.Value.key, value := v } } :: (as ++ bs) := by
    have h2 := setValue_of_ne v hp
    unfold setValue at h2 ⊢
    rw [List.map_cons, h2]
    simp
  rw [this]

/-- The second branch of `Add`: no element of the list holds the key. -/
theorem addEntry_of_not_mem {V : Type} [Value V] {c : Cache V} (h : Inv c) {k : String}
    (hk : k ∉ keys c) (v : V) :
    addEntry c k v
      = { c with
          ll := { ptr := c.nextPtr, Value := { key := k, value := v } } :: c.ll
          cache := (k, c.nextPtr) :: c.cache
          nbytes := c.nbytes + ((k.utf8ByteSize : Int) + (Value.Len v : Int))
          nextPtr := c.nextPtr + 1 } := by
  unfold addEntry
  rw [h.lookup_of_not_mem hk]
  simp only [PushFront, mapInsert]
  rw [mapDelete_of_not_mem (h.not_mem_map hk)]

theorem Inv_addEntry {V : Type} [Value V] {c : Cache V} (h : Inv c) (k : String) (v : V) :
    Inv (addEntry c k v) := by
  by_cases hk : k ∈ keys c
  · obtain ⟨e, he, rfl⟩ := List.mem_map.mp hk
    rw [addEntry_of_mem h he]
    obtain ⟨as, bs, hl, _, hkk⟩ := h.split he
    have := h.moveFront hl v (c.nbytes + ((Value.Len e.Value.value : Int) - (Value.Len v : Int)))
    rw [hl, filter_split hkk]
    exact this
  · rw [addEntry_of_not_mem h hk]
    refine ⟨?_, ?_, ?_, ?_⟩
    · simp only [List.map_cons, List.nodup_cons]
      refine ⟨?_, h.ptrs_nodup⟩
      intro hm
      obtain ⟨x, hx, hxp⟩ := List.mem_map.mp hm
      have := h.fresh x hx
      omega
    · simp only [keys, List.map_cons, List.nodup_cons]
      exact ⟨hk, h.keys_nodup⟩
    · simp only [List.map_cons]
      exact List.Perm.cons _ h.map_perm
    · intro x hx
      simp only [List.mem_cons] at hx
      rcases hx with hx | hx
      · subst hx
        simp
      · have := h.fresh x hx
        simp only
        omega

/-- `RemoveOldest` on a list that ends in `e`. -/
theorem RemoveOldest_concat {V : Type} [Value V] {c : Cache V} (h : Inv c)
    {front : List (Element V)} {e : Element V} (hl : c.ll = front ++ [e]) :
    RemoveOldest c
      = { c with
          ll := front
          cache := mapDelete c.cache e.Value.key
          nbytes := c.nbytes - cost e.Value
          evicted := if c.OnEvicted then c.evicted ++ [(e.Value.key, e.Value.value)]
                     else c.evicted } := by
  have he : e ∈ c.ll := by rw [hl]; simp
  have hp : ∀ x ∈ front ++ [], x.ptr ≠ e.ptr := by
    have := h.ptrs_nodup
    rw [hl] at this
    exact ne_of_nodup_split (fun x : Element V => x.ptr) this
  unfold RemoveOldest Back
  rw [hl, List.getLast?_concat]
  simp only [Remove, cost]
  rw [eraseP_split hp, List.append_nil]

/-- `RemoveOldest` on the empty list. -/
theorem RemoveOldest_nil {V : Type} [Value V] {c : Cache V} (hl : c.ll = []) :
    RemoveOldest c = c := by
  unfold RemoveOldest Back
  rw [hl]
  rfl

theorem Inv_RemoveOldest {V : Type} [Value V] {c : Cache V} (h : Inv c) :
    Inv (RemoveOldest c) := by
  rcases List.eq_nil_or_concat c.ll with hl | ⟨front, e, hl⟩
  · rw [RemoveOldest_nil hl]
    exact h
  · rw [List.concat_eq_append] at hl
    rw [RemoveOldest_concat h hl]
    have hk : ∀ x ∈ front ++ [], x.Value.key ≠ e.Value.key := by
      have := h.keys_nodup
      unfold keys at this
      rw [hl] at this
      exact ne_of_nodup_split (fun x : Element V => x.Value.key) this
    refine ⟨?_, ?_, ?_, ?_⟩
    · have := h.ptrs_nodup
      rw [hl, List.map_append] at this
      exact (List.nodup_append.mp this).1
    · have := h.keys_nodup
      unfold keys at this
      rw [hl, List.map_append] at this
      exact (List.nodup_append.mp this).1
    · have hperm := h.map_perm.filter (fun kp => decide (kp.1 ≠ e.Value.key))
      simp only [mapDelete]
      refine hperm.trans ?_
      rw [hl, List.map_append, List.filter_append]
      have h1 : (front.map (fun x => (x.Value.key, x.ptr))).filter
          (fun kp => decide (kp.1 ≠ e.Value.key)) = front.map (fun x => (x.Value.key, x.ptr)) := by
        rw [List.filter_eq_self]
        intro a ha
        obtain ⟨x, hx, rfl⟩ := List.mem_map.mp ha
        simpa using hk x (by simpa using hx)
      rw [h1]
      simp
    · intro x hx
      exact h.fresh x (by rw [hl]; simp only at hx; simp [hx])

theorem Inv_evictLoop {V : Type} [Value V] (fuel : Nat) {c c' : Cache V} (h : Inv c)
    (hr : evictLoop fuel c = some c') : Inv c' := by
  induction fuel generalizing c with
  | zero =>
    unfold evictLoop at hr
    split at hr
    · simp at hr
    · simp only [Option.some.injEq] at hr
      exact hr ▸ h
  | succ n ih =>
    unfold evictLoop at hr
    split at hr
    · exact ih (Inv_RemoveOldest h) hr
    · simp only [Option.some.injEq] at hr
      exact hr ▸ h

theorem Inv_step {V : Type} [Value V] (fuel : Nat) {c c' : Cache V} (h : Inv c) (op : Op V)
    (hr : step fuel c op = some c') : Inv c' := by
  cases op with
  | Add k v => exact Inv_evictLoop fuel (Inv_addEntry h k v) hr
  | Get k =>
    simp only [step, Option.some.injEq] at hr
    exact hr ▸ Inv_Get h k
  | RemoveOldest =>
    simp only [step, Option.some.injEq] at hr
    exact hr ▸ Inv_RemoveOldest h

theorem Inv_run {V : Type} [Value V] (fuel : Nat) {c c' : Cache V} (h : Inv c)
    (ops : List (Op V)) (hr : run fuel c ops = some c') : Inv c' := by
  induction ops generalizing c with
  | nil =>
    simp only [run, Option.some.injEq] at hr
    exact hr ▸ h
  | cons op ops ih =>
    simp only [run] at hr
    cases hs : step fuel c op with
    | none => simp [hs] at hr
    | some c1 =>
      rw [hs] at hr
      exact ih (Inv_step fuel h op hs) hr

/-! ## The loop that evicts -/

theorem evictLoop_of_not {V : Type} [Value V] (fuel : Nat) {c : Cache V}
    (h : ¬ (c.maxBytes ≠ 0 ∧ c.maxBytes < c.nbytes)) : evictLoop fuel c = some c := by
  unfold evictLoop
  rw [if_neg h]

theorem evictLoop_succ {V : Type} [Value V] (n : Nat) {c : Cache V}
    (h : c.maxBytes ≠ 0 ∧ c.maxBytes < c.nbytes) :
    evictLoop (n + 1) c = evictLoop n (RemoveOldest c) := by
  rw [evictLoop, if_pos h]

/-- Once the list is empty and the counter is still above the maximum, the loop
never ends: `RemoveOldest` has nothing left to take away. -/
theorem evictLoop_stuck {V : Type} [Value V] (fuel : Nat) {c : Cache V} (hl : c.ll = [])
    (h : c.maxBytes ≠ 0 ∧ c.maxBytes < c.nbytes) : evictLoop fuel c = none := by
  induction fuel with
  | zero =>
    unfold evictLoop
    rw [if_pos h]
  | succ n ih =>
    rw [evictLoop_succ n h, RemoveOldest_nil hl]
    exact ih

theorem RemoveOldest_maxBytes {V : Type} [Value V] (c : Cache V) :
    (RemoveOldest c).maxBytes = c.maxBytes := by
  unfold RemoveOldest
  split <;> rfl

theorem addEntry_maxBytes {V : Type} [Value V] (c : Cache V) (k : String) (v : V) :
    (addEntry c k v).maxBytes = c.maxBytes := by
  unfold addEntry
  split
  · split <;> rfl
  · rfl

/-- When the loop ends, the maximum is unchanged and is 0 or at least the
counter. -/
theorem evictLoop_post {V : Type} [Value V] (fuel : Nat) {c c' : Cache V}
    (hr : evictLoop fuel c = some c') :
    c'.maxBytes = c.maxBytes ∧ ¬ (c'.maxBytes ≠ 0 ∧ c'.maxBytes < c'.nbytes) := by
  induction fuel generalizing c with
  | zero =>
    unfold evictLoop at hr
    split at hr
    · simp at hr
    · rename_i hc
      simp only [Option.some.injEq] at hr
      subst hr
      exact ⟨rfl, hc⟩
  | succ n ih =>
    unfold evictLoop at hr
    split at hr
    · have := ih hr
      rw [RemoveOldest_maxBytes] at this
      exact this
    · rename_i hc
      simp only [Option.some.injEq] at hr
      subst hr
      exact ⟨rfl, hc⟩

/-! ## The byte counter -/

/-- C1 (code bug): the counter does not stay equal to the sum of the costs.  On
a cache made by `New(0, nil)`, `Add("a", v1)` with a value of 1 byte and then
`Add("a", v3)` with a value of 3 bytes leave the counter at 0, while the one
entry held costs 4 bytes. -/
theorem C1_counter_differs_from_sum :
    (run 0 (New 0 false) [Op.Add "a" (zeros 1), Op.Add "a" (zeros 3)]).map
      (fun c => (c.nbytes, sumCost c, entries c))
      = some (0, 4, [{ key := "a", value := zeros 3 }]) := by
  decide

/-- C2 (code bug): on replacing the 1-byte value of the key "a" by a 3-byte
value, the first branch of `Add` moves the counter by old size minus new size,
which is -2, and not by new size minus old size, which is 2. -/
theorem C2_replace_moves_counter_by_old_minus_new :
    (addEntry (addEntry (New 0 false) "a" (zeros 1)) "a" (zeros 3)).nbytes
        - (addEntry (New 0 false) "a" (zeros 1)).nbytes = -2
      ∧ (Value.Len (zeros 3) : Int) - (Value.Len (zeros 1) : Int) = 2 := by
  decide

/-- C3 (code bug): `Add` does not always return.  On a cache made by
`New(10, nil)`, after `Add("a", v9)` with a value of 9 bytes, the call
`Add("a", v0)` with an empty value raises the counter to 19, evicts the only
entry and is left with an empty list and the counter at 18, above the maximum:
whatever the fuel, the loop does not end. -/
theorem C3_add_loops_forever (fuel : Nat) :
    run fuel (New 10 false) [Op.Add "a" (zeros 9)]
        = some { maxBytes := 10, nbytes := 10,
                 ll := [{ ptr := 0, Value := { key := "a", value := zeros 9 } }],
                 cache := [("a", 0)], OnEvicted := false, nextPtr := 1, evicted := [] }
      ∧ Add fuel { maxBytes := 10, nbytes := 10,
                   ll := [{ ptr := 0, Value := { key := "a", value := zeros 9 } }],
                   cache := [("a", 0)], OnEvicted := false, nextPtr := 1, evicted := [] }
          "a" (zeros 0) = none := by
  constructor
  · simp only [run, step, Add]
    rw [evictLoop_of_not fuel (by decide)]
    rfl
  · unfold Add
    cases fuel with
    | zero => rfl
    | succ n =>
      rw [evictLoop_succ n (by decide)]
      exact evictLoop_stuck n (by decide) (by decide)

theorem Add_bound {V : Type} [Value V] (fuel : Nat) {c c' : Cache V} (k : String) (v : V)
    (hr : Add fuel c k v = some c') :
    c'.maxBytes = c.maxBytes ∧ (c'.maxBytes = 0 ∨ c'.nbytes ≤ c'.maxBytes) := by
  have h := evictLoop_post fuel hr
  rw [addEntry_maxBytes] at h
  refine ⟨h.1, ?_⟩
  by_cases h0 : c'.maxBytes = 0
  · exact Or.inl h0
  · right
    by_contra hlt
    exact h.2 ⟨h0, by omega⟩

theorem run_adds_bound {V : Type} [Value V] (fuel : Nat) (M : Int) (hM : 0 < M)
    (adds : List (String × V)) {c c' : Cache V} (hmax : c.maxBytes = M) (hn : c.nbytes ≤ M)
    (hr : run fuel c (adds.map (fun kv => Op.Add kv.1 kv.2)) = some c') :
    c'.maxBytes = M ∧ c'.nbytes ≤ M := by
  induction adds generalizing c with
  | nil =>
    simp only [List.map_nil, run, Option.some.injEq] at hr
    subst hr
    exact ⟨hmax, hn⟩
  | cons kv adds ih =>
    simp only [List.map_cons, run, step] at hr
    cases hs : Add fuel c kv.1 kv.2 with
    | none => simp [hs] at hr
    | some c1 =>
      rw [hs] at hr
      have hb := Add_bound fuel kv.1 kv.2 hs
      have h1 : c1.maxBytes = M := hb.1.trans hmax
      refine ih h1 ?_ hr
      rcases hb.2 with h0 | hle
      · omega
      · omega

/-- C4: for a maximum `M > 0` and any sequence of `Add` calls on a cache made
by `New(M, cb)`, after the calls the byte counter is at most `M`, or the cache
holds exactly one entry and the cost of that entry is above `M`. -/
theorem C4_byte_bound {V : Type} [Value V] (M : Int) (hM : 0 < M) (cb : Bool) (fuel : Nat)
    (adds : List (String × V)) (c : Cache V)
    (hr : run fuel (New M cb) (adds.map (fun kv => Op.Add kv.1 kv.2)) = some c) :
    c.nbytes ≤ M ∨ ∃ e, c.ll = [e] ∧ M < cost e.Value :=
  Or.inl (run_adds_bound fuel M hM adds rfl (le_of_lt hM) hr).2

/-- C4 at the budget of 16 bytes with two entries of 11 bytes each: the run
returns and the counter, 11, is at most 16. -/
theorem C4_byte_bound_witness :
    (0 : Int) < 16
      ∧ run 1 (New 16 false) (scenarioAdds.map (fun kv => Op.Add kv.1 kv.2))
          = some scenarioCache
      ∧ (scenarioCache.nbytes ≤ 16
          ∨ ∃ e, scenarioCache.ll = [e] ∧ 16 < cost e.Value) :=
  ⟨by decide, by decide,
   C4_byte_bound 16 (by decide) false 1 scenarioAdds scenarioCache (by decide)⟩

/-- C5 (code bug): an `Add` of an entry that fits need not be found by the
`Get` that follows.  On a cache made by `New(10, nil)` that holds "a" with a
value of 5 bytes, `Add("a", v0)` with an empty value (cost 1, within 10) raises
the counter from 6 to 11 and so evicts "a" itself: `Get("a")` then misses. -/
theorem C5_add_then_get_misses :
    run 1 (New 10 false) [Op.Add "a" (zeros 5)]
        = some { maxBytes := 10, nbytes := 6,
                 ll := [{ ptr := 0, Value := { key := "a", value := zeros 5 } }],
                 cache := [("a", 0)], OnEvicted := false, nextPtr := 1, evicted := [] }
      ∧ cost { key := "a", value := zeros 0 } = 1
      ∧ (Add 1 { maxBytes := 10, nbytes := 6,
                 ll := [{ ptr := 0, Value := { key := "a", value := zeros 5 } }],
                 cache := [("a", 0)], OnEvicted := false, nextPtr := 1, evicted := [] }
          "a" (zeros 0)).map (fun c => ((Get c "a").1, Len c, c.nbytes))
          = some (none, 0, 10) := by
  decide

/-! ## An entry larger than the maximum -/

theorem addEntry_New {V : Type} [Value V] (M : Int) (cb : Bool) (k : String) (v : V) :
    addEntry (New M cb) k v
      = { maxBytes := M, nbytes := 0 + cost { key := k, value := v },
          ll := [{ ptr := 0, Value := { key := k, value := v } }],
          cache := [(k, 0)], OnEvicted := cb, nextPtr := 1, evicted := [] } := rfl

/-- C7, as the claim states it, fails: with the maximum 5, `Add("a", v10)` of a
value of 10 bytes (cost 11) on the empty cache returns with no entry left, so
`Len()` is 0, not 1, and `Get("a")` misses. -/
theorem C7_oversized_not_kept :
    (0 : Int) < 5 ∧ (5 : Int) < cost { key := "a", value := zeros 10 }
      ∧ (Add 1 (New 5 false) "a" (zeros 10)).map (fun c => (Len c, (Get c "a").1))
          = some (0, none)
      ∧ (Add 1 (New 5 false) "a" (zeros 10)).map (fun c => (Len c, (Get c "a").1))
          ≠ some (1, some (zeros 10)) := by
  decide

/-- C7, amended: for a maximum `M > 0` and an entry whose cost is above `M`
and still an `int64`, `Add` on the empty cache made by `New(M, cb)` returns
(one round of the loop is enough) and leaves the cache empty: `Len()` is 0 and
`Get` of the key misses. -/
theorem C7_oversized_on_empty_is_evicted {V : Type} [Value V] (M : Int) (hM : 0 < M)
    (cb : Bool) (k : String) (v : V) (hc : M < cost { key := k, value := v })
    (_hfit : cost { key := k, value := v } ≤ maxInt64) (fuel : Nat) (hf : 0 < fuel) :
    ∃ c, Add fuel (New M cb) k v = some c ∧ Len c = 0 ∧ (Get c k).1 = none := by
  obtain ⟨n, rfl⟩ : ∃ n, fuel = n + 1 := ⟨fuel - 1, by omega⟩
  refine ⟨RemoveOldest (addEntry (New M cb) k v), ?_, ?_, ?_⟩
  · unfold Add
    rw [evictLoop_succ n]
    · apply evictLoop_of_not
      rw [addEntry_New]
      simp only [RemoveOldest, Back, List.getLast?_singleton, cost]
      intro h
      have := h.2
      simp only at this
      omega
    · rw [addEntry_New]
      exact ⟨by simp only; omega, by simp only; omega⟩
  · rw [addEntry_New]
    simp [RemoveOldest, Back, Remove, Len]
  · rw [addEntry_New]
    simp [RemoveOldest, Back, Remove, Get, mapDelete, mapLookup]

/-- C7, amended, at the maximum 5 and a value of 10 bytes under the key "a". -/
theorem C7_oversized_on_empty_is_evicted_witness :
    (0 : Int) < 5 ∧ (5 : Int) < cost { key := "a", value := zeros 10 }
      ∧ cost { key := "a", value := zeros 10 } ≤ maxInt64 ∧ 0 < 1
      ∧ ∃ c, Add 1 (New 5 false) "a" (zeros 10) = some c ∧ Len c = 0
          ∧ (Get c "a").1 = none :=
  ⟨by decide, by decide, by decide, by decide,
   C7_oversized_on_empty_is_evicted 5 (by decide) false "a" (zeros 10) (by decide)
     (by decide) 1 (by decide)⟩

/-! ## Which elements a method leaves in the list -/

theorem mem_MoveToFront {V : Type} {l : List (Element V)} {p : Nat} {x : Element V}
    (hx : x ∈ MoveToFront l p) : x ∈ l := by
  unfold MoveToFront at hx
  split at hx
  · rename_i e he
    rcases List.mem_cons.mp hx with h1 | h1
    · exact h1 ▸ (deref_mem he).1
    · exact List.mem_of_mem_eraseP h1
  · exact hx

theorem mem_Get {V : Type} {c : Cache V} {k : String} {x : Element V}
    (hx : x ∈ (Get c k).2.ll) : x ∈ c.ll := by
  unfold Get at hx
  split at hx
  · split at hx
    · exact mem_MoveToFront hx
    · exact hx
  · exact hx

theorem mem_RemoveOldest {V : Type} [Value V] {c : Cache V} {x : Element V}
    (hx : x ∈ (RemoveOldest c).ll) : x ∈ c.ll := by
  unfold RemoveOldest at hx
  split at hx
  · exact List.mem_of_mem_eraseP hx
  · exact hx

theorem mem_evictLoop {V : Type} [Value V] (fuel : Nat) {c c' : Cache V} {x : Element V}
    (hr : evictLoop fuel c = some c') (hx : x ∈ c'.ll) : x ∈ c.ll := by
  induction fuel generalizing c with
  | zero =>
    unfold evictLoop at hr
    split at hr
    · simp at hr
    · simp only [Option.some.injEq] at hr
      exact hr ▸ hx
  | succ n ih =>
    unfold evictLoop at hr
    split at hr
    · exact mem_RemoveOldest (ih hr)
    · simp only [Option.some.injEq] at hr
      exact hr ▸ hx

theorem mem_addEntry {V : Type} [Value V] {c : Cache V} (h : Inv c) {k : String} {v : V}
    {x : Element V} (hx : x ∈ (addEntry c k v).ll) :
    (x.Value.key = k ∧ x.Value.value = v) ∨ (x ∈ c.ll ∧ x.Value.key ≠ k) := by
  by_cases hk : k ∈ keys c
  · obtain ⟨e, he, rfl⟩ := List.mem_map.mp hk
    rw [addEntry_of_mem h he] at hx
    simp only [List.mem_cons, List.mem_filter] at hx
    rcases hx with h1 | h1
    · left
      subst h1
      exact ⟨rfl, rfl⟩
    · right
      exact ⟨h1.1, by simpa using h1.2⟩
  · rw [addEntry_of_not_mem h hk] at hx
    simp only [List.mem_cons] at hx
    rcases hx with h1 | h1
    · left
      subst h1
      exact ⟨rfl, rfl⟩
    · right
      refine ⟨h1, ?_⟩
      intro heq
      exact hk (heq ▸ List.mem_map_of_mem (fun e : Element V => e.Value.key) h1)

theorem Get_val_of_mem {V : Type} {c : Cache V} (h : Inv c) {e : Element V} (he : e ∈ c.ll) :
    (Get c e.Value.key).1 = some e.Value.value := by
  rw [Get_of_mem h he]

theorem Get_val_of_not_mem {V : Type} {c : Cache V} (h : Inv c) {k : String}
    (hk : k ∉ keys c) : (Get c k).1 = none := by
  rw [Get_of_not_mem h hk]

theorem Get_nbytes {V : Type} (c : Cache V) (k : String) : (Get c k).2.nbytes = c.nbytes := by
  unfold Get
  split
  · split <;> rfl
  · rfl

theorem Get_cache {V : Type} (c : Cache V) (k : String) : (Get c k).2.cache = c.cache := by
  unfold Get
  split
  · split <;> rfl
  · rfl

/-! ## The value a key holds -/

theorem lastAdd_concat_Add {V : Type} (hist : List (Op V)) (k : String) (v : V)
    (key : String) :
    lastAdd (hist ++ [Op.Add k v]) key = if k = key then some v else lastAdd hist key := by
  induction hist with
  | nil =>
    simp only [List.nil_append, lastAdd]
  | cons op hist ih =>
    cases op with
    | Add k1 v1 =>
      rw [List.cons_append]
      simp only [lastAdd]
      rw [ih]
      by_cases hk : k = key
      · simp [hk]
      · simp [hk]
    | Get k1 => simpa only [List.cons_append, lastAdd] using ih
    | RemoveOldest => simpa only [List.cons_append, lastAdd] using ih

theorem lastAdd_concat_Get {V : Type} (hist : List (Op V)) (k : String) (key : String) :
    lastAdd (hist ++ [Op.Get k]) key = lastAdd hist key := by
  induction hist with
  | nil => simp only [List.nil_append, lastAdd]
  | cons op hist ih =>
    cases op with
    | Add k1 v1 =>
      rw [List.cons_append]
      simp only [lastAdd]
      rw [ih]
    | Get k1 => simpa only [List.cons_append, lastAdd] using ih
    | RemoveOldest => simpa only [List.cons_append, lastAdd] using ih

theorem lastAdd_concat_RemoveOldest {V : Type} (hist : List (Op V)) (key : String) :
    lastAdd (hist ++ [Op.RemoveOldest]) key = lastAdd hist key := by
  induction hist with
  | nil => simp only [List.nil_append, lastAdd]
  | cons op hist ih =>
    cases op with
    | Add k1 v1 =>
      rw [List.cons_append]
      simp only [lastAdd]
      rw [ih]
    | Get k1 => simpa only [List.cons_append, lastAdd] using ih
    | RemoveOldest => simpa only [List.cons_append, lastAdd] using ih

/-- Every entry in the list holds the value of the latest `Add` of its key. -/
theorem run_lastAdd {V : Type} [Value V] (fuel : Nat) (ops : List (Op V)) :
    ∀ (hist : List (Op V)) {c c' : Cache V}, Inv c →
      (∀ e ∈ c.ll, lastAdd hist e.Value.key = some e.Value.value) →
      run fuel c ops = some c' →
      ∀ e ∈ c'.ll, lastAdd (hist ++ ops) e.Value.key = some e.Value.value := by
  induction ops with
  | nil =>
    intro hist c c' _ hv hr
    simp only [run, Option.some.injEq] at hr
    subst hr
    simpa using hv
  | cons op ops ih =>
    intro hist c c' h hv hr
    simp only [run] at hr
    cases hs : step fuel c op with
    | none => simp [hs] at hr
    | some c1 =>
      rw [hs] at hr
      rw [List.append_cons]
      refine ih (hist ++ [op]) (Inv_step fuel h op hs) ?_ hr
      intro e he
      cases op with
      | Add k v =>
        have hmem := mem_addEntry h (mem_evictLoop fuel hs he)
        rw [lastAdd_concat_Add]
        rcases hmem with ⟨hk, hval⟩ | ⟨hin, hne⟩
        · rw [if_pos hk.symm, hval]
        · rw [if_neg (fun heq => hne heq.symm)]
          exact hv e hin
      | Get k =>
        simp only [step, Option.some.injEq] at hs
        subst hs
        rw [lastAdd_concat_Get]
        exact hv e (mem_Get he)
      | RemoveOldest =>
        simp only [step, Option.some.injEq] at hs
        subst hs
        rw [lastAdd_concat_RemoveOldest]
        exact hv e (mem_RemoveOldest he)

/-- C9: on a cache reached from `New` by any calls `ops`, `Get(k)` returns a
value exactly when `k` is a key of the cache (a key of the list, which is the
same as a key of the map), and that value is the one of the latest `Add` of
`k`; otherwise it returns no value and the cache is unchanged, order included.
In both cases the byte counter, the map, the keys held and `Len()` are
unchanged. -/
theorem C9_Get {V : Type} [Value V] (M : Int) (cb : Bool) (fuel : Nat) (ops : List (Op V))
    (c : Cache V) (hr : run fuel (New M cb) ops = some c) (k : String) :
    ((Get c k).1.isSome ↔ k ∈ keys c)
      ∧ (k ∈ keys c ↔ (mapLookup c.cache k).isSome)
      ∧ (k ∈ keys c → (Get c k).1 = lastAdd ops k)
      ∧ (k ∉ keys c → Get c k = (none, c))
      ∧ (Get c k).2.nbytes = c.nbytes
      ∧ (Get c k).2.cache = c.cache
      ∧ (keys (Get c k).2).Perm (keys c)
      ∧ Len (Get c k).2 = Len c := by
  have h : Inv c := Inv_run fuel (Inv_New M cb) ops hr
  have hv := run_lastAdd fuel ops [] (Inv_New M cb) (fun e he => by simp [New] at he) hr
  have hperm : (keys (Get c k).2).Perm (keys c) := by
    by_cases hk : k ∈ keys c
    · obtain ⟨e, he, rfl⟩ := List.mem_map.mp hk
      obtain ⟨as, bs, hl, _, hkk⟩ := h.split he
      rw [Get_of_mem h he]
      simp only [keys]
      rw [hl, filter_split hkk]
      simp only [List.map_cons, List.map_append]
      exact List.perm_middle.symm
    · rw [Get_of_not_mem h hk]
  refine ⟨?_, ?_, ?_, fun hk => Get_of_not_mem h hk, Get_nbytes c k, Get_cache c k, hperm, ?_⟩
  · constructor
    · intro hs
      by_contra hk
      rw [Get_val_of_not_mem h hk] at hs
      simp at hs
    · intro hk
      obtain ⟨e, he, rfl⟩ := List.mem_map.mp hk
      rw [Get_val_of_mem h he]
      rfl
  · constructor
    · intro hk
      obtain ⟨e, he, rfl⟩ := List.mem_map.mp hk
      rw [h.lookup_of_mem he]
      rfl
    · intro hs
      by_contra hk
      rw [h.lookup_of_not_mem hk] at hs
      simp at hs
  · intro hk
    obtain ⟨e, he, rfl⟩ := List.mem_map.mp hk
    rw [Get_val_of_mem h he]
    exact (hv e he).symm
  · have := hperm.length_eq
    simpa [keys, Len] using this

/-- C9 on the cache of `smallOps` and the key "a". -/
theorem C9_Get_witness :
    run 0 (New 0 true) smallOps = some (smallCache 0)
      ∧ (((Get (smallCache 0) "a").1.isSome ↔ "a" ∈ keys (smallCache 0))
      ∧ ("a" ∈ keys (smallCache 0) ↔ (mapLookup (smallCache 0).cache "a").isSome)
      ∧ ("a" ∈ keys (smallCache 0) → (Get (smallCache 0) "a").1 = lastAdd smallOps "a")
      ∧ ("a" ∉ keys (smallCache 0) → Get (smallCache 0) "a" = (none, smallCache 0))
      ∧ (Get (smallCache 0) "a").2.nbytes = (smallCache 0).nbytes
      ∧ (Get (smallCache 0) "a").2.cache = (smallCache 0).cache
      ∧ (keys (Get (smallCache 0) "a").2).Perm (keys (smallCache 0))
      ∧ Len (Get (smallCache 0) "a").2 = Len (smallCache 0)) :=
  ⟨by decide, C9_Get 0 true 0 smallOps (smallCache 0) (by decide) "a"⟩

/-! ## RemoveOldest -/

theorem map_key_filter {V : Type} (l : List (Element V)) (k : String) :
    (l.filter (fun x => decide (x.Value.key ≠ k))).map (fun x => x.Value.key)
      = (l.map (fun x => x.Value.key)).filter (fun s => decide (s ≠ k)) := by
  rw [List.filter_map]
  rfl

theorem keys_addEntry {V : Type} [Value V] {c : Cache V} (h : Inv c) (k : String) (v : V) :
    keys (addEntry c k v) = k :: (keys c).filter (fun s => decide (s ≠ k)) := by
  by_cases hk : k ∈ keys c
  · obtain ⟨e, he, rfl⟩ := List.mem_map.mp hk
    rw [addEntry_of_mem h he]
    simp only [keys, List.map_cons]
    rw [map_key_filter]
  · rw [addEntry_of_not_mem h hk]
    simp only [keys, List.map_cons]
    congr 1
    symm
    rw [List.filter_eq_self]
    intro a ha
    have : a ≠ k := fun heq => hk (heq ▸ ha)
    simpa using this

theorem keys_Get_of_mem {V : Type} {c : Cache V} (h : Inv c) {k : String} (hk : k ∈ keys c) :
    keys (Get c k).2 = k :: (keys c).filter (fun s => decide (s ≠ k)) := by
  obtain ⟨e, he, rfl⟩ := List.mem_map.mp hk
  rw [Get_of_mem h he]
  simp only [keys, List.map_cons]
  rw [map_key_filter]

theorem Get_maxBytes {V : Type} (c : Cache V) (k : String) :
    (Get c k).2.maxBytes = c.maxBytes := by
  unfold Get
  split
  · split <;> rfl
  · rfl

theorem Get_evicted {V : Type} (c : Cache V) (k : String) :
    (Get c k).2.evicted = c.evicted := by
  unfold Get
  split
  · split <;> rfl
  · rfl

theorem addEntry_evicted {V : Type} [Value V] (c : Cache V) (k : String) (v : V) :
    (addEntry c k v).evicted = c.evicted := by
  unfold addEntry
  split
  · split <;> rfl
  · rfl

/-! ## A maximum of 0 -/

theorem Add_of_maxBytes_zero {V : Type} [Value V] (fuel : Nat) {c : Cache V}
    (h0 : c.maxBytes = 0) (k : String) (v : V) : Add fuel c k v = some (addEntry c k v) := by
  unfold Add
  apply evictLoop_of_not
  rw [addEntry_maxBytes]
  exact fun h => h.1 h0

theorem run_unbounded {V : Type} [Value V] (fuel : Nat) (ops : List (Op V)) :
    ∀ {c : Cache V}, Inv c → c.maxBytes = 0 → (∀ op ∈ ops, op ≠ Op.RemoveOldest) →
      ∃ c', run fuel c ops = some c' ∧ c'.maxBytes = 0 ∧ c'.evicted = c.evicted
        ∧ ∀ k, k ∈ keys c' ↔ k ∈ keys c ∨ k ∈ addedKeys ops := by
  induction ops with
  | nil =>
    intro c _ h0 _
    exact ⟨c, rfl, h0, rfl, fun k => by simp [addedKeys]⟩
  | cons op ops ih =>
    intro c h h0 hops
    have hops' : ∀ o ∈ ops, o ≠ Op.RemoveOldest :=
      fun o ho => hops o (List.mem_cons_of_mem _ ho)
    cases op with
    | Add k v =>
      have h1 : (addEntry c k v).maxBytes = 0 := by rw [addEntry_maxBytes]; exact h0
      obtain ⟨c', hr, hm, hev, hkeys⟩ := ih (Inv_addEntry h k v) h1 hops'
      refine ⟨c', ?_, hm, ?_, ?_⟩
      · simp only [run, step]
        rw [Add_of_maxBytes_zero fuel h0]
        exact hr
      · rw [hev, addEntry_evicted]
      · intro k'
        rw [hkeys k', keys_addEntry h]
        simp only [List.mem_cons, List.mem_filter, addedKeys, decide_eq_true_eq]
        by_cases hkk : k' = k
        · simp [hkk]
        · simp [hkk]
    | Get k =>
      obtain ⟨c', hr, hm, hev, hkeys⟩ :=
        ih (Inv_Get h k) ((Get_maxBytes c k).trans h0) hops'
      refine ⟨c', ?_, hm, ?_, ?_⟩
      · simp only [run, step]
        exact hr
      · rw [hev, Get_evicted]
      · intro k'
        rw [hkeys k']
        simp only [addedKeys]
        have : k' ∈ keys (Get c k).2 ↔ k' ∈ keys c := by
          constructor
          · intro hm'
            obtain ⟨x, hx, rfl⟩ := List.mem_map.mp hm'
            exact List.mem_map_of_mem (fun e : Element V => e.Value.key) (mem_Get hx)
          · intro hm'
            by_cases hk : k ∈ keys c
            · rw [keys_Get_of_mem h hk]
              by_cases hkk : k' = k
              · simp [hkk]
              · simp [hkk, hm']
            · rw [Get_of_not_mem h hk]
              exact hm'
        rw [this]
    | RemoveOldest => exact absurd rfl (hops _ (List.mem_cons_self _ _))

/-- C8: on a cache made by `New(0, cb)`, any sequence `ops` of `Add` and `Get`
calls returns, makes no call of the eviction callback, and ends in a cache
that holds exactly the keys given to `Add`: `Len()` is the number of distinct
keys added and `Get(k)` returns the value of the latest `Add` of `k` for every
key `k` added.  A further `Add` on that cache returns without any round of the
loop that evicts. -/
theorem C8_unbounded {V : Type} [Value V] (cb : Bool) (fuel : Nat) (ops : List (Op V))
    (hops : ∀ op ∈ ops, op ≠ Op.RemoveOldest) :
    ∃ c, run fuel (New 0 cb) ops = some c
      ∧ c.evicted = []
      ∧ (∀ k, k ∈ keys c ↔ k ∈ addedKeys ops)
      ∧ Len c = (addedKeys ops).dedup.length
      ∧ (∀ k ∈ addedKeys ops, ∃ v, lastAdd ops k = some v ∧ (Get c k).1 = some v)
      ∧ ∀ k v, Add fuel c k v = some (addEntry c k v) := by
  obtain ⟨c, hr, hm, hev, hkeys⟩ := run_unbounded fuel ops (Inv_New 0 cb) rfl hops
  have h : Inv c := Inv_run fuel (Inv_New 0 cb) ops hr
  have hv := run_lastAdd fuel ops [] (Inv_New 0 cb) (fun e he => by simp [New] at he) hr
  have hk : ∀ k, k ∈ keys c ↔ k ∈ addedKeys ops := by
    intro k
    rw [hkeys k]
    simp [keys, New]
  refine ⟨c, hr, hev, hk, ?_, ?_, fun k v => Add_of_maxBytes_zero fuel hm k v⟩
  · have hperm : (keys c).Perm (addedKeys ops).dedup :=
      (List.perm_ext_iff_of_nodup h.keys_nodup (List.nodup_dedup _)).mpr
        (fun a => by rw [hk a, List.mem_dedup])
    simpa [keys, Len] using hperm.length_eq
  · intro k hka
    obtain ⟨e, he, rfl⟩ := List.mem_map.mp ((hk k).mpr hka)
    exact ⟨e.Value.value, by simpa using hv e he, Get_val_of_mem h he⟩

/-- C8 on `smallOps` with the callback set: nothing is evicted, two keys are
held, and "a" holds the value of 3 bytes added last. -/
theorem C8_unbounded_witness :
    (∀ op ∈ smallOps, op ≠ Op.RemoveOldest)
      ∧ ∃ c, run 0 (New 0 true) smallOps = some c
        ∧ c.evicted = []
        ∧ (∀ k, k ∈ keys c ↔ k ∈ addedKeys smallOps)
        ∧ Len c = (addedKeys smallOps).dedup.length
        ∧ (∀ k ∈ addedKeys smallOps, ∃ v, lastAdd smallOps k = some v ∧ (Get c k).1 = some v)
        ∧ ∀ k v, Add 0 c k v = some (addEntry c k v) :=
  ⟨by decide, C8_unbounded true 0 smallOps (by decide)⟩

/-! ## Recency -/

theorem lastAccess_concat_self (acc : List String) (k : String) :
    lastAccess (acc ++ [k]) k = some acc.length := by
  induction acc with
  | nil => simp [lastAccess]
  | cons a acc ih =>
    rw [List.cons_append]
    simp only [lastAccess]
    rw [ih]
    rfl

theorem lastAccess_concat_ne (acc : List String) {k b : String} (h : b ≠ k) :
    lastAccess (acc ++ [k]) b = lastAccess acc b := by
  induction acc with
  | nil => simp [lastAccess, h.symm]
  | cons a acc ih =>
    rw [List.cons_append]
    simp only [lastAccess]
    rw [ih]

theorem lastAccess_lt {acc : List String} {b : String} {i : Nat}
    (h : lastAccess acc b = some i) : i < acc.length := by
  induction acc generalizing i with
  | nil => simp [lastAccess] at h
  | cons a acc ih =>
    simp only [lastAccess] at h
    cases hl : lastAccess acc b with
    | some j =>
      rw [hl] at h
      simp only [Option.some.injEq] at h
      have := ih hl
      simp only [List.length_cons]
      omega
    | none =>
      rw [hl] at h
      simp only at h
      split at h
      · simp only [Option.some.injEq] at h
        simp only [List.length_cons]
        omega
      · simp at h

theorem Later_concat {acc : List String} {k a b : String} (ha : a ≠ k) (hb : b ≠ k)
    (h : Later acc a b) : Later (acc ++ [k]) a b := by
  obtain ⟨i, j, hi, hj, hij⟩ := h
  exact ⟨i, j, by rw [lastAccess_concat_ne acc hb, hi],
    by rw [lastAccess_concat_ne acc ha, hj], hij⟩

/-- An access of `k` puts `k` in front of the other keys. -/
theorem Recent_touch {acc ks : List String} (k : String) (h : Recent acc ks) :
    Recent (acc ++ [k]) (k :: ks.filter (fun s => decide (s ≠ k))) := by
  have hmem : ∀ b ∈ ks.filter (fun s => decide (s ≠ k)), b ∈ ks ∧ b ≠ k := by
    intro b hb
    rw [List.mem_filter] at hb
    exact ⟨hb.1, by simpa using hb.2⟩
  constructor
  · intro x hx
    rcases List.mem_cons.mp hx with h1 | h1
    · exact ⟨acc.length, by rw [h1, lastAccess_concat_self]⟩
    · obtain ⟨hin, hne⟩ := hmem x h1
      obtain ⟨i, hi⟩ := h.1 x hin
      exact ⟨i, by rw [lastAccess_concat_ne acc hne, hi]⟩
  · rw [List.pairwise_cons]
    constructor
    · intro b hb
      obtain ⟨hin, hne⟩ := hmem b hb
      obtain ⟨i, hi⟩ := h.1 b hin
      exact ⟨i, acc.length, by rw [lastAccess_concat_ne acc hne, hi],
        lastAccess_concat_self acc k, lastAccess_lt hi⟩
    · refine List.Pairwise.imp_of_mem ?_ (h.2.filter _)
      intro a b ha hb hab
      exact Later_concat (hmem a ha).2 (hmem b hb).2 hab

theorem Recent_sublist {acc ks ks' : List String} (hs : ks'.Sublist ks) (h : Recent acc ks) :
    Recent acc ks' :=
  ⟨fun k hk => h.1 k (hs.subset hk), h.2.sublist hs⟩

/-- The loop only takes elements away from the back of the list. -/
theorem evictLoop_front {V : Type} [Value V] (fuel : Nat) {c c' : Cache V} (h : Inv c)
    (hr : evictLoop fuel c = some c') : ∃ rest, c.ll = c'.ll ++ rest := by
  induction fuel generalizing c with
  | zero =>
    unfold evictLoop at hr
    split at hr
    · simp at hr
    · simp only [Option.some.injEq] at hr
      exact ⟨[], by simp [hr]⟩
  | succ n ih =>
    unfold evictLoop at hr
    split at hr
    · obtain ⟨rest, hrest⟩ := ih (Inv_RemoveOldest h) hr
      rcases List.eq_nil_or_concat c.ll with hl | ⟨front, e, hl⟩
      · rw [RemoveOldest_nil hl] at hrest
        exact ⟨rest, hrest⟩
      · rw [List.concat_eq_append] at hl
        rw [RemoveOldest_concat h hl] at hrest
        simp only at hrest
        exact ⟨rest ++ [e], by rw [hl, hrest, List.append_assoc]⟩
    · simp only [Option.some.injEq] at hr
      exact ⟨[], by simp [hr]⟩

theorem keys_sublist_of_front {V : Type} {c c' : Cache V} (h : ∃ rest, c.ll = c'.ll ++ rest) :
    (keys c').Sublist (keys c) := by
  obtain ⟨rest, hrest⟩ := h
  unfold keys
  rw [hrest, List.map_append]
  exact List.sublist_append_left _ _

theorem keys_RemoveOldest_sublist {V : Type} [Value V] (c : Cache V) :
    (keys (RemoveOldest c)).Sublist (keys c) := by
  unfold keys
  apply List.Sublist.map
  unfold RemoveOldest
  split
  · exact List.eraseP_sublist _
  · exact List.Sublist.refl _

/-- The keys of the list stay in the order of their most recent access. -/
theorem run_recent {V : Type} [Value V] (fuel : Nat) (ops : List (Op V)) :
    ∀ (acc : List String) {c c' : Cache V}, Inv c → Recent acc (keys c) →
      run fuel c ops = some c' → Recent (acc ++ accesses fuel c ops) (keys c') := by
  induction ops with
  | nil =>
    intro acc c c' _ hrec hr
    simp only [run, Option.some.injEq] at hr
    subst hr
    simpa [accesses] using hrec
  | cons op ops ih =>
    intro acc c c' h hrec hr
    simp only [run] at hr
    cases hs : step fuel c op with
    | none => simp [hs] at hr
    | some c1 =>
      rw [hs] at hr
      simp only [accesses, hs]
      rw [← List.append_assoc]
      refine ih (acc ++ accessed c op) (Inv_step fuel h op hs) ?_ hr
      cases op with
      | Add k v =>
        have h1 : Recent (acc ++ [k]) (keys (addEntry c k v)) := by
          rw [keys_addEntry h]
          exact Recent_touch k hrec
        exact Recent_sublist
          (keys_sublist_of_front (evictLoop_front fuel (Inv_addEntry h k v) hs)) h1
      | Get k =>
        simp only [step, Option.some.injEq] at hs
        subst hs
        by_cases hk : k ∈ keys c
        · obtain ⟨e, he, hek⟩ := List.mem_map.mp hk
          have hsome : (Get c k).1.isSome = true := by
            rw [← hek, Get_val_of_mem h he]
            rfl
          simp only [accessed, hsome, if_true]
          rw [keys_Get_of_mem h hk]
          exact Recent_touch k hrec
        · simp only [accessed, Get_val_of_not_mem h hk, Option.isSome_none,
            Bool.false_eq_true, if_false, List.append_nil]
          rw [Get_of_not_mem h hk]
          exact hrec
      | RemoveOldest =>
        simp only [step, Option.some.injEq] at hs
        subst hs
        simp only [accessed, List.append_nil]
        exact Recent_sublist (keys_RemoveOldest_sublist c) hrec

/-- C6: on a cache reached from `New` by any calls `ops`, the entry at the back
of the list, the one `RemoveOldest` takes next, was last accessed (by a `Get`
that hit or by an `Add` of its key) before the last access of every other
entry of the list.  A `Get` that hits moves its entry to the front and keeps
the order of the other entries; so does `Add` on a key of the list, which also
stores the new value, and the loop that follows only takes entries away from
the back. -/
theorem C6_recency {V : Type} [Value V] (M : Int) (cb : Bool) (fuel : Nat)
    (ops : List (Op V)) (c : Cache V) (hr : run fuel (New M cb) ops = some c) :
    (∀ front t, c.ll = front ++ [t] →
        ∀ e ∈ front, Later (accesses fuel (New M cb) ops) e.Value.key t.Value.key)
      ∧ (∀ e ∈ c.ll,
          Get c e.Value.key
            = (some e.Value.value,
               { c with
                 ll := e :: c.ll.filter (fun x => decide (x.Value.key ≠ e.Value.key)) }))
      ∧ ∀ e ∈ c.ll, ∀ v,
          (addEntry c e.Value.key v).ll
              = { ptr := e.ptr, Value := { key := e.Value.key, value := v } }
                  :: c.ll.filter (fun x => decide (x.Value.key ≠ e.Value.key))
            ∧ ∀ c', Add fuel c e.Value.key v = some c' →
                ∃ rest, (addEntry c e.Value.key v).ll = c'.ll ++ rest := by
  have h : Inv c := Inv_run fuel (Inv_New M cb) ops hr
  have hrec := run_recent fuel ops [] (Inv_New M cb)
    ⟨fun k hk => by simp [keys, New] at hk, by simp [keys, New]⟩ hr
  rw [List.nil_append] at hrec
  refine ⟨?_, fun e he => Get_of_mem h he, ?_⟩
  · intro front t hl e he
    have hp := hrec.2
    unfold keys at hp
    rw [hl, List.map_append, List.pairwise_append] at hp
    exact hp.2.2 e.Value.key (List.mem_map_of_mem (fun x : Element V => x.Value.key) he)
      t.Value.key (by simp)
  · intro e he v
    refine ⟨by rw [addEntry_of_mem h he], ?_⟩
    intro c' hadd
    exact evictLoop_front fuel (Inv_addEntry h e.Value.key v) hadd

/-- C6 on `smallOps`: the accesses are "a", "b", "a", the list holds "a" in
front of "b", and the last access of "b" (time 1) is before the last access of
"a" (time 2). -/
theorem C6_recency_witness :
    run 0 (New 0 true) smallOps = some (smallCache 0)
      ∧ accesses 0 (New 0 true) smallOps = ["a", "b", "a"]
      ∧ Later (accesses 0 (New 0 true) smallOps) "a" "b" :=
  ⟨by decide, by decide,
   (C6_recency 0 true 0 smallOps (smallCache 0) (by decide)).1
     [{ ptr := 0, Value := { key := "a", value := zeros 3 } }]
     { ptr := 1, Value := { key := "b", value := zeros 2 } } (by decide)
     { ptr := 0, Value := { key := "a", value := zeros 3 } } (by decide)⟩

/-! ## The map against the list -/

/-- C11: on a cache reached from `New` by any calls, the keys of the map are
the keys held by the entries of the list, no key occurs in two entries of the
list (nor twice in the map), every map value is the address of the element of
the list that carries that key, and `Len()` is the number of keys in the
map. -/
theorem C11_structure {V : Type} [Value V] (M : Int) (cb : Bool) (fuel : Nat)
    (ops : List (Op V)) (c : Cache V) (hr : run fuel (New M cb) ops = some c) :
    (∀ k, k ∈ c.cache.map Prod.fst ↔ k ∈ keys c)
      ∧ (keys c).Nodup
      ∧ (c.cache.map Prod.fst).Nodup
      ∧ (∀ k p, mapLookup c.cache k = some p →
          ∃ e, deref c.ll p = some e ∧ e ∈ c.ll ∧ e.Value.key = k)
      ∧ Len c = (c.cache.map Prod.fst).length := by
  have h : Inv c := Inv_run fuel (Inv_New M cb) ops hr
  have hperm : (c.cache.map Prod.fst).Perm (keys c) := by
    have := h.map_perm.map Prod.fst
    rw [List.map_map] at this
    exact this
  refine ⟨fun k => hperm.mem_iff, h.keys_nodup, hperm.nodup_iff.mpr h.keys_nodup, ?_, ?_⟩
  · intro k p hl
    have hm := mem_of_mapLookup hl
    rw [h.map_perm.mem_iff] at hm
    obtain ⟨e, he, heq⟩ := List.mem_map.mp hm
    simp only [Prod.mk.injEq] at heq
    refine ⟨e, ?_, he, heq.1⟩
    rw [← heq.2]
    exact deref_of_mem h.ptrs_nodup he
  · have := hperm.length_eq
    simpa [keys, Len] using this.symm

/-- C11 on the cache of `smallOps`: the map and the list both hold "a" and
"b", and `Len()` is 2. -/
theorem C11_structure_witness :
    run 0 (New 0 true) smallOps = some (smallCache 0)
      ∧ ((∀ k, k ∈ (smallCache 0).cache.map Prod.fst ↔ k ∈ keys (smallCache 0))
      ∧ (keys (smallCache 0)).Nodup
      ∧ ((smallCache 0).cache.map Prod.fst).Nodup
      ∧ (∀ k p, mapLookup (smallCache 0).cache k = some p →
          ∃ e, deref (smallCache 0).ll p = some e ∧ e ∈ (smallCache 0).ll ∧ e.Value.key = k)
      ∧ Len (smallCache 0) = ((smallCache 0).cache.map Prod.fst).length) :=
  ⟨by decide, C11_structure 0 true 0 smallOps (smallCache 0) (by decide)⟩

/-! ## An entry larger than the maximum, on any cache -/

end GeeCache.lru

/-! ## Groups -/

namespace GeeCache

theorem lru_Get_miss {V : Type} (c : lru.Cache V) (k : String) (h : (lru.Get c k).1 = none) :
    (lru.Get c k).2 = c := by
  unfold lru.Get at h ⊢
  cases h1 : lru.mapLookup c.cache k with
  | none => rfl
  | some p =>
    rw [h1] at h
    simp only at h ⊢
    cases h2 : lru.deref c.ll p with
    | none => rfl
    | some e =>
      rw [h2] at h
      simp at h

/-- A miss leaves the local cache as it was. -/
theorem cache_get_miss (c : cache) (k : String) (h : (c.get k).1 = none) :
    (c.get k).2 = c := by
  unfold cache.get at h ⊢
  cases hl : c.lru with
  | none => simp
  | some l =>
    rw [hl] at h
    simp only at h ⊢
    rw [lru_Get_miss l k h]
    cases c
    simp only at hl
    rw [hl]

/-- C12: for every group, `Get("")` returns the zero `ByteView` and the error
"key is required", and the group is as before: the local cache is unchanged
and nothing was asked of the cache, of the peer selector or of the loader. -/
theorem C12_empty_key_rejected (fuel : Nat) (g : Group) :
    Group.Get fuel g "" = some (({ bv := [] }, some "key is required"), g) := by
  simp [Group.Get]

theorem getLocally_err (fuel : Nat) (g : Group) (k : String) (e : Error)
    (h : (g.getter.Get k).2 = some e) :
    Group.getLocally fuel g k
      = some (({ bv := [] }, some e),
              { g with events := g.events ++ [Event.getterGet k] }) := by
  simp [Group.getLocally, h]

theorem getLocally_ok (fuel : Nat) (g : Group) (k : String) (h : (g.getter.Get k).2 = none) :
    Group.getLocally fuel g k
      = (g.mainCache.add fuel k { bv := cloneBytes (g.getter.Get k).1 }).map
          (fun c => (({ bv := cloneBytes (g.getter.Get k).1 }, none),
            { g with mainCache := c
                     events := g.events ++ [Event.getterGet k, Event.cacheAdd k] })) := by
  simp only [Group.getLocally, h, Group.populateCache, Option.map_map]
  congr 1
  funext c
  simp

/-- After `getLocally`, with the named result `value` still zero, `load`
returns what `getLocally` returned. -/
theorem loadReturn_getLocally (fuel : Nat) (g : Group) (k : String) :
    ((Group.getLocally fuel g k).map (fun q => ((q.1, ({ bv := [] } : ByteView)), q.2))).map
        Group.loadReturn
      = Group.getLocally fuel g k := by
  cases hres : (g.getter.Get k).2 with
  | some e =>
    rw [getLocally_err fuel g k e hres]
    rfl
  | none =>
    rw [getLocally_ok fuel g k hres]
    cases g.mainCache.add fuel k { bv := cloneBytes (g.getter.Get k).1 } <;> rfl

/-- With no selector registered `load` is `getLocally`. -/
theorem load_of_no_peers (fuel : Nat) (g : Group) (k : String) (h : g.peers = none) :
    Group.load fuel g k = Group.getLocally fuel g k := by
  simp only [Group.load, Group.loadFn, singleflight.Group.Do, h]
  exact loadReturn_getLocally fuel g k

/-- When the selector picks no peer `load` is `getLocally`. -/
theorem load_of_not_picked (fuel : Nat) (g : Group) (k : String) (picker : PeerPicker)
    (h : g.peers = some picker) (hp : picker.PickPeer k = none) :
    Group.load fuel g k
      = Group.getLocally fuel { g with events := g.events ++ [Event.pickPeer k] } k := by
  simp only [Group.load, Group.loadFn, singleflight.Group.Do, h, hp]
  exact loadReturn_getLocally fuel _ k

/-- When the peer picked fails `load` is `getLocally`. -/
theorem load_of_peer_failed (fuel : Nat) (g : Group) (k : String) (picker : PeerPicker)
    (peer : PeerGetter) (e : Error) (h : g.peers = some picker)
    (hp : picker.PickPeer k = some peer)
    (hf : (peer.Get { Group := g.name, Key := k } { Value := [] }).2 = some e) :
    Group.load fuel g k
      = Group.getLocally fuel
          { g with events := g.events ++ [Event.pickPeer k, Event.peerGet g.name k] } k := by
  simp only [Group.load, Group.loadFn, singleflight.Group.Do, h, hp, Group.getFromPeer, hf,
    List.append_assoc, List.singleton_append, List.nil_append]
  exact loadReturn_getLocally fuel _ k

/-- When the peer picked answers, `load` returns its bytes and asks nothing
else. -/
theorem load_of_peer_ok (fuel : Nat) (g : Group) (k : String) (picker : PeerPicker)
    (peer : PeerGetter) (h : g.peers = some picker) (hp : picker.PickPeer k = some peer)
    (hok : (peer.Get { Group := g.name, Key := k } { Value := [] }).2 = none) :
    Group.load fuel g k
      = some (({ bv := (peer.Get { Group := g.name, Key := k } { Value := [] }).1.Value },
               none),
              { g with
                events := g.events ++ [Event.pickPeer k, Event.peerGet g.name k] }) := by
  simp [Group.load, Group.loadFn, singleflight.Group.Do, h, hp, Group.getFromPeer, hok,
    Group.loadReturn]

/-- `Get` of a key that is not empty and misses the local cache is `load`. -/
theorem Get_of_miss (fuel : Nat) (g : Group) (k : String) (hk : k ≠ "")
    (hmiss : (g.mainCache.get k).1 = none) :
    Group.Get fuel g k
      = Group.load fuel { g with events := g.events ++ [Event.cacheGet k] } k := by
  have hc := cache_get_miss g.mainCache k hmiss
  simp only [Group.Get, if_neg hk, hmiss, hc]

/-- A key that misses the cache and is not served by a peer goes to
`getLocally`, after the events of the cache query and of the peer attempt. -/
theorem Get_of_not_served (fuel : Nat) (g : Group) (k : String) (hk : k ≠ "")
    (hmiss : (g.mainCache.get k).1 = none) (hpeer : g.servedByPeer k = false) :
    ∃ evs, (∀ key, Event.getterGet key ∉ evs) ∧ (∀ key, Event.cacheAdd key ∉ evs)
      ∧ Group.Get fuel g k
          = Group.getLocally fuel { g with events := g.events ++ evs } k := by
  rw [Get_of_miss fuel g k hk hmiss]
  rcases Option.eq_none_or_eq_some g.peers with hp | ⟨picker, hp⟩
  · exact ⟨[Event.cacheGet k], by simp, by simp,
      load_of_no_peers fuel { g with events := g.events ++ [Event.cacheGet k] } k hp⟩
  · rcases Option.eq_none_or_eq_some (picker.PickPeer k) with hpick | ⟨peer, hpick⟩
    · refine ⟨[Event.cacheGet k, Event.pickPeer k], by simp, by simp, ?_⟩
      rw [load_of_not_picked fuel { g with events := g.events ++ [Event.cacheGet k] } k
        picker hp hpick]
      simp
    · rcases Option.eq_none_or_eq_some
          (peer.Get { Group := g.name, Key := k } { Value := [] }).2 with hget | ⟨e, hget⟩
      · simp [Group.servedByPeer, hp, hpick, hget] at hpeer
      · refine ⟨[Event.cacheGet k, Event.pickPeer k, Event.peerGet g.name k],
          by simp, by simp, ?_⟩
        rw [load_of_peer_failed fuel { g with events := g.events ++ [Event.cacheGet k] } k
          picker peer e hp hpick hget]
        simp

theorem Get_loader_error (fuel : Nat) (g : Group) (k : String) (e : Error) (hk : k ≠ "")
    (hmiss : (g.mainCache.get k).1 = none) (hpeer : g.servedByPeer k = false)
    (hload : (g.getter.Get k).2 = some e) :
    ∃ evs, evs.count (Event.getterGet k) = 1 ∧ (∀ key, Event.cacheAdd key ∉ evs)
      ∧ Group.Get fuel g k
          = some (({ bv := [] }, some e), { g with events := g.events ++ evs }) := by
  obtain ⟨evs, hg, ha, heq⟩ := Get_of_not_served fuel g k hk hmiss hpeer
  refine ⟨evs ++ [Event.getterGet k], ?_, ?_, ?_⟩
  · rw [List.count_append, List.count_eq_zero_of_not_mem (hg k)]
    simp
  · intro key hmem
    rcases List.mem_append.mp hmem with h1 | h1
    · exact ha key h1
    · simp at h1
  · rw [heq, getLocally_err fuel { g with events := g.events ++ evs } k e hload]
    simp

/-- C13: for a key `k` that is not empty, misses the local cache and is not
served by a peer, when the loader returns the error `e` for `k`, `Get(k)`
returns the zero `ByteView` and exactly `e`, calls the loader once, admits
nothing and leaves the local cache as it was; a second `Get(k)` does the same
and so calls the loader again. -/
theorem C13_loader_error_surfaced (fuel : Nat) (g : Group) (k : String) (e : Error)
    (hk : k ≠ "") (hmiss : (g.mainCache.get k).1 = none)
    (hpeer : g.servedByPeer k = false) (hload : (g.getter.Get k).2 = some e) :
    ∃ g1 g2, Group.Get fuel g k = some (({ bv := [] }, some e), g1)
      ∧ g1.mainCache = g.mainCache
      ∧ g1.events.count (Event.getterGet k) = g.events.count (Event.getterGet k) + 1
      ∧ g1.events.count (Event.cacheAdd k) = g.events.count (Event.cacheAdd k)
      ∧ Group.Get fuel g1 k = some (({ bv := [] }, some e), g2)
      ∧ g2.mainCache = g.mainCache
      ∧ g2.events.count (Event.getterGet k) = g.events.count (Event.getterGet k) + 2 := by
  obtain ⟨evs, hc, ha, heq⟩ := Get_loader_error fuel g k e hk hmiss hpeer hload
  obtain ⟨evs2, hc2, _, heq2⟩ :=
    Get_loader_error fuel { g with events := g.events ++ evs } k e hk hmiss hpeer hload
  refine ⟨_, _, heq, rfl, ?_, ?_, heq2, rfl, ?_⟩
  · simp only [List.count_append, hc]
  · simp only [List.count_append, List.count_eq_zero_of_not_mem (ha k)]
    rfl
  · simp only [List.count_append, hc, hc2]

/-- C13 on the group of main.go: `Get("Unknown")` returns the error
"Unknown not exist". -/
theorem C13_loader_error_surfaced_witness :
    "Unknown" ≠ "" ∧ (scores.mainCache.get "Unknown").1 = none
      ∧ scores.servedByPeer "Unknown" = false
      ∧ (scores.getter.Get "Unknown").2 = some "Unknown not exist"
      ∧ ∃ g1 g2, Group.Get 0 scores "Unknown"
            = some (({ bv := [] }, some "Unknown not exist"), g1)
          ∧ g1.mainCache = scores.mainCache
          ∧ g1.events.count (Event.getterGet "Unknown")
              = scores.events.count (Event.getterGet "Unknown") + 1
          ∧ g1.events.count (Event.cacheAdd "Unknown")
              = scores.events.count (Event.cacheAdd "Unknown")
          ∧ Group.Get 0 g1 "Unknown" = some (({ bv := [] }, some "Unknown not exist"), g2)
          ∧ g2.mainCache = scores.mainCache
          ∧ g2.events.count (Event.getterGet "Unknown")
              = scores.events.count (Event.getterGet "Unknown") + 2 :=
  ⟨by decide, by decide, by decide, by decide,
   C13_loader_error_surfaced 0 scores "Unknown" "Unknown not exist" (by decide) (by decide)
     (by decide) (by decide)⟩

/-! ### Copies of bytes -/

theorem copyBytes_makeBytes (b : List Byte) : copyBytes (makeBytes b.length) b = b := by
  simp [copyBytes, makeBytes]

theorem cloneBytes_eq (b : List Byte) : cloneBytes b = b :=
  copyBytes_makeBytes b

/-! ### Two calls of Get -/

/-- The first admission to the cache of a new group, of an entry within the
budget. -/
theorem cache_add_fresh (fuel : Nat) (B : Int) (k : String) (v : ByteView)
    (hB : B = 0 ∨ lru.cost { key := k, value := v } ≤ B) :
    cache.add fuel { cacheBytes := B, lru := none } k v
      = some { cacheBytes := B, lru := some (lru.addEntry (lru.New B false) k v) } := by
  simp only [cache.add, Option.getD_none, lru.Add]
  rw [lru.evictLoop_of_not]
  · rfl
  · rw [lru.addEntry_New]
    simp only
    intro h
    rcases hB with h0 | hle
    · exact h.1 h0
    · omega

theorem cache_get_fresh (B : Int) (k : String) (v : ByteView) :
    (cache.get { cacheBytes := B, lru := some (lru.addEntry (lru.New B false) k v) } k).1
      = some v := by
  rw [lru.addEntry_New]
  simp [cache.get, lru.Get, lru.mapLookup, lru.deref]

/-- C14: on the group made by `NewGroup(name, B, f)` (no peer selector), for a
key `k` that is not empty and for which the loader returns the bytes `b`
without error, with `B = 0` or `len(k) + len(b) <= B`, two calls of `Get(k)`
one after the other both return a `ByteView` of the bytes `b` with a nil
error, and the loader is called once in all: the first call asks the cache,
the loader, and admits the value; the second only asks the cache. -/
theorem C14_second_get_hits (fuel : Nat) (groups : Registry) (name : String) (B : Int)
    (f : Getter) (k : String) (b : List Byte) (hk : k ≠ "") (hload : f.Get k = (b, none))
    (hB : B = 0 ∨ (k.utf8ByteSize : Int) + (b.length : Int) ≤ B) :
    ∃ g g1 g2, (NewGroup groups name B (some f)).2.2 = some g
      ∧ g.peers = none
      ∧ Group.Get fuel g k = some (({ bv := b }, none), g1)
      ∧ Group.Get fuel g1 k = some (({ bv := b }, none), g2)
      ∧ g2.events
          = [Event.cacheGet k, Event.getterGet k, Event.cacheAdd k, Event.cacheGet k] := by
  have hres : (f.Get k).2 = none := by rw [hload]
  have hb : (f.Get k).1 = b := by rw [hload]
  have hcost : B = 0 ∨ lru.cost { key := k, value := ({ bv := b } : ByteView) } ≤ B := by
    rcases hB with h0 | hle
    · exact Or.inl h0
    · right
      simpa [lru.cost, lru.Value.Len, ByteView.Len] using hle
  let g : Group :=
    { name := name, getter := f, mainCache := { cacheBytes := B, lru := none },
      peers := none, loader := singleflight.Group.mk, events := [] }
  let g1 : Group :=
    { g with
      mainCache :=
        { cacheBytes := B, lru := some (lru.addEntry (lru.New B false) k { bv := b }) }
      events := [Event.cacheGet k, Event.getterGet k, Event.cacheAdd k] }
  let g2 : Group :=
    { g1 with
      mainCache := (g1.mainCache.get k).2
      events := g1.events ++ [Event.cacheGet k] }
  refine ⟨g, g1, g2, rfl, rfl, ?_, ?_, rfl⟩
  · rw [Get_of_miss fuel g k hk rfl,
      load_of_no_peers fuel { g with events := g.events ++ [Event.cacheGet k] } k rfl,
      getLocally_ok fuel { g with events := g.events ++ [Event.cacheGet k] } k hres]
    simp only [g, hb, cloneBytes_eq]
    rw [cache_add_fresh fuel B k { bv := b } hcost]
    rfl
  · simp only [Group.Get, if_neg hk, g1, g2, cache_get_fresh]

/-- C14 on the group of main.go, "scores" with a budget of 2048 bytes: two
calls of `Get("Tom")` return the bytes of "630" and the loader is called
once. -/
theorem C14_second_get_hits_witness :
    "Tom" ≠ "" ∧ dbGetter.Get "Tom" = ([54, 51, 48], none)
      ∧ ((2048 : Int) = 0
          ∨ (("Tom".utf8ByteSize : Int) + (([54, 51, 48] : List Byte).length : Int) ≤ 2048))
      ∧ ∃ g g1 g2, (NewGroup [] "scores" 2048 (some dbGetter)).2.2 = some g
          ∧ g.peers = none
          ∧ Group.Get 0 g "Tom" = some (({ bv := [54, 51, 48] }, none), g1)
          ∧ Group.Get 0 g1 "Tom" = some (({ bv := [54, 51, 48] }, none), g2)
          ∧ g2.events
              = [Event.cacheGet "Tom", Event.getterGet "Tom", Event.cacheAdd "Tom",
                 Event.cacheGet "Tom"] :=
  ⟨by decide, by decide, by decide,
   C14_second_get_hits 0 [] "scores" 2048 dbGetter "Tom" [54, 51, 48] (by decide)
     (by decide) (by decide)⟩

/-! ### Peers -/

theorem getLocally_view_err (fuel : Nat) (g : Group) (k : String) (e : Error)
    (h : (g.getter.Get k).2 = some e) :
    (Group.getLocally fuel g k).map (fun r => (r.1, r.2.mainCache))
      = some (({ bv := [] }, some e), g.mainCache) := by
  rw [getLocally_err fuel g k e h]
  rfl

theorem getLocally_view_ok (fuel : Nat) (g : Group) (k : String)
    (h : (g.getter.Get k).2 = none) :
    (Group.getLocally fuel g k).map (fun r => (r.1, r.2.mainCache))
      = (g.mainCache.add fuel k { bv := (g.getter.Get k).1 }).map
          (fun c => (({ bv := (g.getter.Get k).1 }, none), c)) := by
  rw [getLocally_ok fuel g k h, Option.map_map, cloneBytes_eq]
  rfl

/-- C15: for a key `k` that is not empty and misses the local cache, when the
registered selector picks a peer whose `Get` fails, `Get(k)` returns the same
view and error, and leaves the same local cache, as on the same group with no
selector registered: the error of the loader (with the zero view, the cache
untouched) when the loader fails, and the bytes of the loader with a nil error,
admitted to the local cache, when the loader succeeds. -/
theorem C15_peer_fallthrough (fuel : Nat) (g : Group) (k : String) (picker : PeerPicker)
    (peer : PeerGetter) (e : Error) (hk : k ≠ "") (hmiss : (g.mainCache.get k).1 = none)
    (hp : g.peers = some picker) (hpick : picker.PickPeer k = some peer)
    (hfail : (peer.Get { Group := g.name, Key := k } { Value := [] }).2 = some e) :
    (Group.Get fuel g k).map (fun r => (r.1, r.2.mainCache))
        = (Group.Get fuel { g with peers := none } k).map (fun r => (r.1, r.2.mainCache))
      ∧ (∀ e1, (g.getter.Get k).2 = some e1 →
          (Group.Get fuel g k).map (fun r => (r.1, r.2.mainCache))
            = some (({ bv := [] }, some e1), g.mainCache))
      ∧ ((g.getter.Get k).2 = none →
          (Group.Get fuel g k).map (fun r => (r.1, r.2.mainCache))
            = (g.mainCache.add fuel k { bv := (g.getter.Get k).1 }).map
                (fun c => (({ bv := (g.getter.Get k).1 }, none), c))) := by
  have h1 : Group.Get fuel g k
      = Group.getLocally fuel
          { g with events := g.events ++ [Event.cacheGet k] ++
              [Event.pickPeer k, Event.peerGet g.name k] } k := by
    rw [Get_of_miss fuel g k hk hmiss,
      load_of_peer_failed fuel { g with events := g.events ++ [Event.cacheGet k] } k
        picker peer e hp hpick hfail]
  have h2 : Group.Get fuel { g with peers := none } k
      = Group.getLocally fuel
          { g with peers := none, events := g.events ++ [Event.cacheGet k] } k := by
    rw [Get_of_miss fuel { g with peers := none } k hk hmiss,
      load_of_no_peers fuel
        { g with peers := none, events := g.events ++ [Event.cacheGet k] } k rfl]
  rw [h1, h2]
  refine ⟨?_, ?_, ?_⟩
  · rcases Option.eq_none_or_eq_some (g.getter.Get k).2 with hres | ⟨e1, hres⟩
    · exact (getLocally_view_ok fuel
          { g with events := g.events ++ [Event.cacheGet k] ++
              [Event.pickPeer k, Event.peerGet g.name k] } k hres).trans
        (getLocally_view_ok fuel
          { g with peers := none, events := g.events ++ [Event.cacheGet k] } k hres).symm
    · exact (getLocally_view_err fuel
          { g with events := g.events ++ [Event.cacheGet k] ++
              [Event.pickPeer k, Event.peerGet g.name k] } k e1 hres).trans
        (getLocally_view_err fuel
          { g with peers := none, events := g.events ++ [Event.cacheGet k] } k e1 hres).symm
  · intro e1 hres
    exact getLocally_view_err fuel
      { g with events := g.events ++ [Event.cacheGet k] ++
          [Event.pickPeer k, Event.peerGet g.name k] } k e1 hres
  · intro hres
    exact getLocally_view_ok fuel
      { g with events := g.events ++ [Event.cacheGet k] ++
          [Event.pickPeer k, Event.peerGet g.name k] } k hres

/-- C15 on the group of main.go with a selector that always picks a failing
peer: `Get("Tom")` returns what it returns with no selector. -/
theorem C15_peer_fallthrough_witness :
    "Tom" ≠ "" ∧ (scores.mainCache.get "Tom").1 = none
      ∧ (failingPeer.Get { Group := "scores", Key := "Tom" } { Value := [] }).2
          = some "peer down"
      ∧ (Group.Get 0 { scores with peers := some (pickAlways failingPeer) } "Tom").map
            (fun r => (r.1, r.2.mainCache))
          = (Group.Get 0 { scores with peers := none } "Tom").map
              (fun r => (r.1, r.2.mainCache)) :=
  ⟨by decide, by decide, by decide,
   (C15_peer_fallthrough 0 { scores with peers := some (pickAlways failingPeer) } "Tom"
     (pickAlways failingPeer) failingPeer "peer down" (by decide) (by decide) rfl rfl
     (by decide)).1⟩

/-- C16: for a key `k` that is not empty and misses the local cache, when the
registered selector picks a peer whose `Get` succeeds with the response `res`,
`Get(k)` returns a view of the bytes of `res` with a nil error; it asks the
cache, the selector and the peer and nothing else, so the loader is not
called, and the local cache is as before: `k` still misses. -/
theorem C16_peer_value_not_admitted (fuel : Nat) (g : Group) (k : String)
    (picker : PeerPicker) (peer : PeerGetter) (res : pb.Response) (hk : k ≠ "")
    (hmiss : (g.mainCache.get k).1 = none) (hp : g.peers = some picker)
    (hpick : picker.PickPeer k = some peer)
    (hok : peer.Get { Group := g.name, Key := k } { Value := [] } = (res, none)) :
    ∃ g1, Group.Get fuel g k = some (({ bv := res.Value }, none), g1)
      ∧ g1.mainCache = g.mainCache
      ∧ (g1.mainCache.get k).1 = none
      ∧ g1.events
          = g.events ++ [Event.cacheGet k, Event.pickPeer k, Event.peerGet g.name k] := by
  have hok2 : (peer.Get { Group := g.name, Key := k } { Value := [] }).2 = none := by
    rw [hok]
  refine ⟨{ g with events := g.events ++ [Event.cacheGet k] ++
              [Event.pickPeer k, Event.peerGet g.name k] }, ?_, rfl, hmiss, by simp⟩
  rw [Get_of_miss fuel g k hk hmiss,
    load_of_peer_ok fuel { g with events := g.events ++ [Event.cacheGet k] } k
      picker peer hp hpick hok2]
  simp only [hok]

/-- C16 on the group of main.go with a selector that always picks a peer that
answers 1, 2, 3. -/
theorem C16_peer_value_not_admitted_witness :
    "Tom" ≠ "" ∧ (scores.mainCache.get "Tom").1 = none
      ∧ ∃ g1, Group.Get 0 { scores with peers := some (pickAlways answeringPeer) } "Tom"
            = some (({ bv := [1, 2, 3] }, none), g1)
          ∧ g1.mainCache = scores.mainCache
          ∧ (g1.mainCache.get "Tom").1 = none
          ∧ g1.events
              = [Event.cacheGet "Tom", Event.pickPeer "Tom", Event.peerGet "scores" "Tom"] :=
  ⟨by decide, by decide,
   C16_peer_value_not_admitted 0 { scores with peers := some (pickAlways answeringPeer) }
     "Tom" (pickAlways answeringPeer) answeringPeer { Value := [1, 2, 3] } (by decide)
     (by decide) rfl rfl rfl⟩

/-- C17: on a group with no selector yet, `RegisterPeers(s1)` returns and stores
`s1`; a further `RegisterPeers(s2)` then panics and leaves the group as it was,
so the stored selector is still `s1`. -/
theorem C17_register_peers_once (g : Group) (s1 : PeerPicker) (s2 : Option PeerPicker)
    (hg : g.peers = none) :
    (g.RegisterPeers (some s1)).1 = none
      ∧ (g.RegisterPeers (some s1)).2.peers = some s1
      ∧ ((g.RegisterPeers (some s1)).2.RegisterPeers s2).1
          = some "RegisterPeerPicker called more than once"
      ∧ ((g.RegisterPeers (some s1)).2.RegisterPeers s2).2 = (g.RegisterPeers (some s1)).2
      ∧ ((g.RegisterPeers (some s1)).2.RegisterPeers s2).2.peers = some s1 := by
  simp [Group.RegisterPeers, hg]

/-- C17 on the group of main.go. -/
theorem C17_register_peers_once_witness :
    scores.peers = none
      ∧ (scores.RegisterPeers (some (pickAlways failingPeer))).1 = none
      ∧ ((scores.RegisterPeers (some (pickAlways failingPeer))).2.RegisterPeers
            (some (pickAlways answeringPeer))).1
          = some "RegisterPeerPicker called more than once" :=
  have h := C17_register_peers_once scores (pickAlways failingPeer)
    (some (pickAlways answeringPeer)) rfl
  ⟨rfl, h.1, h.2.2.1⟩

/-! ### The registry of groups -/

theorem lookup_filter_ne (r : Registry) {name other : String} (h : other ≠ name) :
    Registry.lookup (r.filter (fun ng => decide (ng.1 ≠ name))) other
      = Registry.lookup r other := by
  induction r with
  | nil => rfl
  | cons a r ih =>
    obtain ⟨n, g⟩ := a
    by_cases hn : n = name
    · have hno : n ≠ other := fun heq => h (heq ▸ hn)
      rw [List.filter_cons_of_neg (by simp [hn]), ih]
      simp only [Registry.lookup]
      rw [if_neg hno]
    · rw [List.filter_cons_of_pos (by simp [hn])]
      simp only [Registry.lookup]
      rw [ih]

theorem lookup_insert_self (r : Registry) (name : String) (g : Group) :
    Registry.lookup (r.insert name g) name = some g := by
  simp [Registry.insert, Registry.lookup]

theorem lookup_insert_ne (r : Registry) {name other : String} (g : Group)
    (h : other ≠ name) :
    Registry.lookup (r.insert name g) other = Registry.lookup r other := by
  simp only [Registry.insert, Registry.lookup, if_neg (Ne.symm h)]
  exact lookup_filter_ne r h

theorem GetGroup_NewGroup_self (r : Registry) (name : String) (b : Int) (f : Getter) :
    GetGroup (NewGroup r name b (some f)).2.1 name = (NewGroup r name b (some f)).2.2 := by
  simp only [NewGroup, GetGroup]
  exact lookup_insert_self r name _

theorem GetGroup_NewGroup_ne (r : Registry) {name other : String} (b : Int)
    (f : Option Getter) (h : other ≠ name) :
    GetGroup (NewGroup r name b f).2.1 other = GetGroup r other := by
  cases f with
  | none => rfl
  | some f =>
    simp only [NewGroup, GetGroup]
    exact lookup_insert_ne r _ h

theorem NewGroup_created (r : Registry) (name : String) (b : Int) (f : Option Getter) :
    (NewGroup r name b f).2.2 = (NewGroup [] name b f).2.2 := by
  cases f <;> rfl

theorem GetGroup_registerAll (calls : List (String × Int × Option Getter)) :
    ∀ (r : Registry) (name : String),
      GetGroup (registerAll r calls) name
        = match lastCreated calls name with
          | some g => some g
          | none => GetGroup r name := by
  induction calls with
  | nil =>
    intro r name
    rfl
  | cons c calls ih =>
    intro r name
    obtain ⟨n, b, f⟩ := c
    simp only [registerAll, lastCreated]
    rw [ih]
    cases hl : lastCreated calls name with
    | some g => rfl
    | none =>
      simp only
      by_cases hn : n = name
      · subst hn
        simp only [if_true]
        cases f with
        | none => rfl
        | some f =>
          rw [GetGroup_NewGroup_self, NewGroup_created]
          rfl
      · simp only [if_neg hn]
        exact GetGroup_NewGroup_ne r b f (fun heq => hn heq.symm)

/-- C18: `NewGroup` with a nil getter panics and leaves the registry as it
was.  With a getter it returns and registers the new group: `GetGroup(name)`
then returns that group, whatever was registered under `name` before, and
`GetGroup` of any other name returns what it returned before.  So after any
sequence of `NewGroup` calls on the empty registry, `GetGroup(name)` returns
the group made by the latest call with that name that returned, and nil when
there is none. -/
theorem C18_registry (groups : Registry) (name : String) (b : Int) (f : Getter)
    (calls : List (String × Int × Option Getter)) :
    (NewGroup groups name b none = (some "nil Getter", groups, none))
      ∧ (NewGroup groups name b (some f)).1 = none
      ∧ (NewGroup groups name b (some f)).2.2
          = some { name := name, getter := f, mainCache := { cacheBytes := b, lru := none },
                   peers := none, loader := singleflight.Group.mk, events := [] }
      ∧ GetGroup (NewGroup groups name b (some f)).2.1 name
          = (NewGroup groups name b (some f)).2.2
      ∧ (∀ other, other ≠ name →
          GetGroup (NewGroup groups name b (some f)).2.1 other = GetGroup groups other)
      ∧ GetGroup (registerAll [] calls) name = lastCreated calls name
      ∧ GetGroup [] name = none := by
  refine ⟨rfl, rfl, rfl, GetGroup_NewGroup_self groups name b f,
    fun other h => GetGroup_NewGroup_ne groups b (some f) h, ?_, rfl⟩
  rw [GetGroup_registerAll]
  cases lastCreated calls name <;> rfl

/-! ### The copy a view hands out -/

theorem read_make_new (h : Heap) (n : Nat) :
    (h.make n).1.read (h.make n).2 = makeBytes n := by
  simp [Heap.make, Heap.read, List.getD_eq_getElem?_getD]

theorem read_make_old (h : Heap) (n : Nat) (s : Slice) (hs : s.addr < h.length) :
    (h.make n).1.read s = h.read s := by
  simp [Heap.make, Heap.read, List.getD_eq_getElem?_getD, List.getElem?_append_left hs]

/-- In the heap `cloneBytes` adds one array, a copy of the bytes of its
argument, and returns its address. -/
theorem mem_cloneBytes_eq (h : Heap) (s : Slice) (hs : s.addr < h.length) :
    mem.cloneBytes h s = (h ++ [h.read s], { addr := h.length }) := by
  unfold mem.cloneBytes
  rw [Heap.copy, read_make_new, read_make_old h _ s hs, copyBytes_makeBytes]
  simp [Heap.make]

theorem read_write_other (h : Heap) (s t : Slice) (i : Nat) (x : Byte)
    (hne : s.addr ≠ t.addr) : (h.write s i x).read t = h.read t := by
  simp [Heap.write, Heap.read, List.getD_eq_getElem?_getD, List.getElem?_set, hne]

theorem length_write (h : Heap) (s : Slice) (i : Nat) (x : Byte) :
    (h.write s i x).length = h.length := by
  simp [Heap.write]

theorem read_append_new (h : Heap) (a : List Byte) :
    Heap.read (h ++ [a]) { addr := h.length } = a := by
  simp [Heap.read, List.getD_eq_getElem?_getD]

theorem read_append_old (h : Heap) (a : List Byte) (s : Slice) (hs : s.addr < h.length) :
    Heap.read (h ++ [a]) s = h.read s := by
  simp [Heap.read, List.getD_eq_getElem?_getD, List.getElem?_append_left hs]

/-- What the methods of a view return is read off the array of the view. -/
theorem answers_eq (h : Heap) (v : mem.ByteView) (hv : v.bv.addr < h.length) :
    v.answers h = (h.read v.bv, stringOfBytes (h.read v.bv), (h.read v.bv).length) := by
  simp only [mem.ByteView.answers, mem.ByteView.ByteSlice, mem.ByteView.String,
    mem.ByteView.Len, mem_cloneBytes_eq h v.bv hv, read_append_new]

/-- C19: in memory, the slice that `v.ByteSlice()` returns has the length
`v.Len()` and the bytes of `v` at every position, so as a string it is
`v.String()`; `cloneBytes(b)` equals `b`, and in memory it returns a new array
with the bytes of its argument.  `ByteSlice` leaves the view as it was, and so
does any later write through the slice it returned: `ByteSlice`, `String` and
`Len` of `v` return what they returned before.  The view that `getLocally`
makes from the slice `s` of the loader holds the bytes of `s`, and a later write
through `s` does not change what `ByteSlice`, `String` and `Len` of that view
return. -/
theorem C19_faithful_copy (h : Heap) (v : mem.ByteView) (hv : v.bv.addr < h.length)
    (b : List Byte) (s : Slice) (hs : s.addr < h.length) :
    ((v.ByteSlice h).1.read (v.ByteSlice h).2).length = v.Len h
      ∧ (∀ i : Nat, ((v.ByteSlice h).1.read (v.ByteSlice h).2)[i]? = (h.read v.bv)[i]?)
      ∧ stringOfBytes ((v.ByteSlice h).1.read (v.ByteSlice h).2) = v.String h
      ∧ cloneBytes b = b
      ∧ (mem.cloneBytes h s).1.read (mem.cloneBytes h s).2 = cloneBytes (h.read s)
      ∧ v.answers (v.ByteSlice h).1 = v.answers h
      ∧ (∀ i x, v.answers ((v.ByteSlice h).1.write (v.ByteSlice h).2 i x) = v.answers h)
      ∧ (mem.loadedView h s).2.value (mem.loadedView h s).1 = { bv := cloneBytes (h.read s) }
      ∧ (∀ i x, (mem.loadedView h s).2.answers ((mem.loadedView h s).1.write s i x)
            = (h.read s, stringOfBytes (h.read s), (h.read s).length)) := by
  have hbs : v.ByteSlice h = (h ++ [h.read v.bv], { addr := h.length }) :=
    mem_cloneBytes_eq h v.bv hv
  have hv1 : v.bv.addr < (h ++ [h.read v.bv]).length := by
    simp only [List.length_append, List.length_singleton]
    omega
  refine ⟨?_, ?_, ?_, cloneBytes_eq b, ?_, ?_, ?_, ?_, ?_⟩
  · rw [hbs]
    simp only [read_append_new, mem.ByteView.Len]
  · intro i
    rw [hbs]
    simp only [read_append_new]
  · rw [hbs]
    simp only [read_append_new, mem.ByteView.String]
  · rw [mem_cloneBytes_eq h s hs, cloneBytes_eq]
    exact read_append_new h _
  · rw [hbs]
    simp only
    rw [answers_eq _ v hv1, answers_eq h v hv, read_append_old h _ v.bv hv]
  · intro i x
    rw [hbs]
    simp only
    have hlen : v.bv.addr < ((h ++ [h.read v.bv]).write { addr := h.length } i x).length := by
      rw [length_write]
      exact hv1
    have hread : ((h ++ [h.read v.bv]).write { addr := h.length } i x).read v.bv
        = h.read v.bv := by
      rw [read_write_other _ _ _ _ _ (by simp only; omega), read_append_old h _ v.bv hv]
    rw [answers_eq _ v hlen, answers_eq h v hv, hread]
  · simp only [mem.loadedView, mem.ByteView.value, mem_cloneBytes_eq h s hs, read_append_new,
      cloneBytes_eq]
  · intro i x
    simp only [mem.loadedView, mem_cloneBytes_eq h s hs]
    have hlen : h.length < ((h ++ [h.read s]).write s i x).length := by
      rw [length_write]
      simp
    have hread : ((h ++ [h.read s]).write s i x).read { addr := h.length } = h.read s := by
      rw [read_write_other _ _ _ _ _ (by simp only; omega), read_append_new]
    rw [answers_eq _ { bv := { addr := h.length } } hlen, hread]

/-- C19 on a heap with the one array 7, 8, 9 and the view of that array: the
slice of `ByteSlice` is a second array with the same bytes; writing 0 at its
first position, or at the first position of the loader's slice after
`getLocally` made its view, leaves the answers of the view at 7, 8, 9. -/
theorem C19_faithful_copy_witness :
    (0 : Nat) < ([[7, 8, 9]] : Heap).length
      ∧ mem.ByteView.ByteSlice [[7, 8, 9]] { bv := { addr := 0 } }
          = ([[7, 8, 9], [7, 8, 9]], { addr := 1 })
      ∧ mem.ByteView.answers
            ((mem.ByteView.ByteSlice [[7, 8, 9]] { bv := { addr := 0 } }).1.write
              (mem.ByteView.ByteSlice [[7, 8, 9]] { bv := { addr := 0 } }).2 0 0)
            { bv := { addr := 0 } }
          = ([7, 8, 9], [7, 8, 9], 3)
      ∧ (mem.loadedView [[7, 8, 9]] { addr := 0 }).2.answers
            ((mem.loadedView [[7, 8, 9]] { addr := 0 }).1.write { addr := 0 } 0 0)
          = ([7, 8, 9], [7, 8, 9], 3)
      ∧ (∀ i x, mem.ByteView.answers
            ((mem.ByteView.ByteSlice [[7, 8, 9]] { bv := { addr := 0 } }).1.write
              (mem.ByteView.ByteSlice [[7, 8, 9]] { bv := { addr := 0 } }).2 i x)
            { bv := { addr := 0 } }
          = mem.ByteView.answers [[7, 8, 9]] { bv := { addr := 0 } })
      ∧ (∀ i x, (mem.loadedView [[7, 8, 9]] { addr := 0 }).2.answers
            ((mem.loadedView [[7, 8, 9]] { addr := 0 }).1.write { addr := 0 } i x)
          = ([7, 8, 9], [7, 8, 9], 3)) :=
  have h := C19_faithful_copy [[7, 8, 9]] { bv := { addr := 0 } } (by decide) [7, 8, 9]
    { addr := 0 } (by decide)
  ⟨by decide, by decide, by decide, by decide, h.2.2.2.2.2.2.1, h.2.2.2.2.2.2.2.2⟩

end GeeCache
